import Mathlib

/-!
Verification development for a real-time market-data fan-out service
(NestJS backend: Binance stream ingestion, throttled broadcast, MongoDB
kline persistence, DB-first history reads).

The definitions below are a shallow embedding of the TypeScript source:
  - KlineRepository (upsertKline, findKlines)
  - BinanceHistoryService (getHistoricalKlines, persistKlineFromStream,
    fetchFromBinance error mapping)
  - BinanceStreamService (reconnect backoff, per-key throttled broadcast)
  - PriceGateway (handleSubscribe)
  - AppController (getHealth)
Machine integers are modelled as Nat/Int (timestamps are int64 ms and stay
far from overflow in all code paths), decimal fields stay strings exactly
as in the source, and effectful calls (Mongo, fetch, socket emits) are
modelled by explicit state passing / oracles.
-/

namespace ChartBackend

/-- Model of the JavaScript string method toUpperCase as used on trading
symbols: per-character ASCII uppercasing (symbols are ASCII alphanumerics;
on that range the JS method is exactly this map). -/
def upChar (c : Char) : Char :=
  if 97 ≤ c.toNat ∧ c.toNat ≤ 122 then Char.ofNat (c.toNat - 32) else c

/-- JS s.toUpperCase(), character-wise over the string. -/
def toUpperCase (s : String) : String := String.mk (s.data.map upChar)

/-!
Data model: the persisted OHLCV row (Mongo collection klines, unique index
on (symbol, interval, openTime)).  Numeric price/volume fields are strings
exactly as in the schema; timestamps are int64 ms modelled as Nat.
The TS fields open/high/low/close are named openPrice/highPrice/lowPrice/
closePrice here because open is a Lean keyword.
-/

structure Kline where
  symbol : String
  interval : String
  openTime : Nat
  closeTime : Nat
  openPrice : String
  highPrice : String
  lowPrice : String
  closePrice : String
  volume : String
  quoteVolume : String
  trades : Nat
  takerBuyBaseVolume : String
  takerBuyQuoteVolume : String
  isClosed : Bool
deriving Repr, DecidableEq

/-- The unique key of a kline row: (symbol, interval, openTime). -/
def klineKey (k : Kline) : String × String × Nat := (k.symbol, k.interval, k.openTime)

/-- KlineRepository.upsertKline: updateOne with filter (symbol, interval,
openTime), update $set data, upsert true.  On a DB respecting the unique
index this replaces the first (only) row with the same key, or appends a
new row when no row matches.  data carries every schema field at the one
call site (persistKlineFromStream), so $set amounts to full replacement. -/
def upsertKline : List Kline → Kline → List Kline
  | [], data => [data]
  | r :: rest, data =>
    if klineKey r = klineKey data then data :: rest else r :: upsertKline rest data

/-- Lookup of the row stored under a key (what a reader of the collection,
e.g. findKlines, observes for that key). -/
def findRow (db : List Kline) (key : String × String × Nat) : Option Kline :=
  db.find? (fun r => klineKey r = key)

/-- The k object of a Binance kline stream event (field names as on the
wire: t/T open and close time, o/h/l/c prices, v/q volumes, n trades,
x isClosed, V/Q taker volumes). -/
structure StreamKline where
  t : Nat
  T : Nat
  o : String
  h : String
  l : String
  c : String
  v : String
  q : String
  n : Nat
  x : Bool
  V : String
  Q : String
deriving Repr, DecidableEq

/-- The row object persistKlineFromStream builds from a stream payload
(symbol uppercased, isClosed := k.x). -/
def streamRow (symbol interval : String) (k : StreamKline) : Kline :=
  { symbol := toUpperCase symbol
    interval := interval
    openTime := k.t
    closeTime := k.T
    openPrice := k.o
    highPrice := k.h
    lowPrice := k.l
    closePrice := k.c
    volume := k.v
    quoteVolume := k.q
    trades := k.n
    takerBuyBaseVolume := k.V
    takerBuyQuoteVolume := k.Q
    isClosed := k.x }

/-- BinanceHistoryService.persistKlineFromStream: builds the row from the
stream payload and upserts it. -/
def persistKlineFromStream (db : List Kline) (symbol interval : String)
    (k : StreamKline) : List Kline :=
  upsertKline db (streamRow symbol interval k)

/-!  KlineRepository.findKlines.  -/

/-- JS truthiness of an optional numeric parameter: undefined and 0 are
falsy.  Mirrors the checks !!(startTime || endTime), if (startTime),
if (endTime) in findKlines. -/
def truthy : Option Nat → Bool
  | none => false
  | some n => n != 0

/-- Ordering for .sort((openTime: 1)) — ascending openTime. -/
def klineAsc (a b : Kline) : Prop := a.openTime ≤ b.openTime

/-- Ordering for .sort((openTime: -1)) — descending openTime. -/
def klineDesc (a b : Kline) : Prop := b.openTime ≤ a.openTime

instance : DecidableRel klineAsc := fun a b => Nat.decLe a.openTime b.openTime

instance : DecidableRel klineDesc := fun a b => Nat.decLe b.openTime a.openTime

instance : IsTotal Kline klineAsc := ⟨fun a b => Nat.le_total a.openTime b.openTime⟩

instance : IsTrans Kline klineAsc := ⟨fun _ _ _ => Nat.le_trans⟩

instance : IsTotal Kline klineDesc := ⟨fun a b => Nat.le_total b.openTime a.openTime⟩

instance : IsTrans Kline klineDesc := ⟨fun _ _ _ h1 h2 => Nat.le_trans h2 h1⟩

/-- The range filter Mongo applies: $gte is added only when startTime is
truthy, $lte only when endTime is truthy. -/
def inOpenTimeRange (startTime endTime : Option Nat) (r : Kline) : Bool :=
  (!truthy startTime || Nat.ble (startTime.getD 0) r.openTime) &&
  (!truthy endTime || Nat.ble r.openTime (endTime.getD 0))

/-- KlineRepository.findKlines: filter by (uppercased symbol, interval);
when a (truthy) time range is present, sort openTime ascending and take
limit; otherwise sort descending, take limit, and reverse to ascending. -/
def findKlines (db : List Kline) (symbol interval : String)
    (startTime endTime : Option Nat) (limit : Nat) : List Kline :=
  let matchesKey := db.filter
    (fun r => r.symbol == toUpperCase symbol && r.interval == interval)
  let hasTimeRange := truthy startTime || truthy endTime
  if hasTimeRange then
    ((matchesKey.filter (inOpenTimeRange startTime endTime)).insertionSort
      klineAsc).take limit
  else
    ((matchesKey.insertionSort klineDesc).take limit).reverse

/-!  BinanceHistoryService: history read path.  -/

/-- INTERVAL_DURATION_MS from binance-history.service.ts. -/
def INTERVAL_DURATION_MS : List (String × Nat) :=
  [("1m", 60000), ("3m", 3 * 60000), ("5m", 5 * 60000), ("15m", 15 * 60000),
   ("30m", 30 * 60000), ("1h", 3600000), ("2h", 2 * 3600000),
   ("4h", 4 * 3600000), ("6h", 6 * 3600000), ("8h", 8 * 3600000),
   ("12h", 12 * 3600000), ("1d", 86400000), ("3d", 3 * 86400000),
   ("1w", 7 * 86400000), ("1M", 30 * 86400000)]

/-- INTERVAL_DURATION_MS[interval] || 3_600_000 (all table values are
nonzero, so JS || only kicks in for unknown intervals). -/
def intervalDurationMs (interval : String) : Nat :=
  (INTERVAL_DURATION_MS.lookup interval).getD 3600000

/-- The REST/DB response row shape (HistoricalKline).  open/close renamed
as in Kline. -/
structure HistoricalKline where
  openTime : Nat
  openPrice : String
  highPrice : String
  lowPrice : String
  closePrice : String
  volume : String
  closeTime : Nat
  quoteVolume : String
  trades : Nat
  takerBuyBaseVolume : String
  takerBuyQuoteVolume : String
deriving Repr, DecidableEq

/-- toHistoricalKline: converts a DB row; quoteVolume/takerBuy fields get
the JS || default when the stored string is empty (falsy). -/
def toHistoricalKline (doc : Kline) : HistoricalKline :=
  { openTime := doc.openTime
    openPrice := doc.openPrice
    highPrice := doc.highPrice
    lowPrice := doc.lowPrice
    closePrice := doc.closePrice
    volume := doc.volume
    closeTime := doc.closeTime
    quoteVolume := if doc.quoteVolume = "" then "0" else doc.quoteVolume
    trades := doc.trades
    takerBuyBaseVolume :=
      if doc.takerBuyBaseVolume = "" then "0" else doc.takerBuyBaseVolume
    takerBuyQuoteVolume :=
      if doc.takerBuyQuoteVolume = "" then "0" else doc.takerBuyQuoteVolume }

/-- HistoricalDataQuery: startTime/endTime/limit optional; limit defaults
to 500 at destructuring. -/
structure HistoricalDataQuery where
  symbol : String
  interval : String
  startTime : Option Nat := none
  endTime : Option Nat := none
  limit : Option Nat := none
deriving Repr, DecidableEq

/-- Oracle for a successful upstream REST klines fetch: the rows Binance
returns for (symbol, interval, startTime, endTime, limit). -/
def FetchOracle : Type :=
  String → String → Option Nat → Option Nat → Nat → List HistoricalKline

/-- The effective limit: Math.min(limit, 1000) with the destructuring
default 500. -/
def effectiveLimit (query : HistoricalDataQuery) : Nat :=
  min (query.limit.getD 500) 1000

/-- The step-1 DB query getHistoricalKlines issues. -/
def historyDbKlines (db : List Kline) (query : HistoricalDataQuery) : List Kline :=
  findKlines db (toUpperCase query.symbol) query.interval
    query.startTime query.endTime (effectiveLimit query)

/-- The freshness gap: now - (latestKline?.openTime || 0), JS integer
arithmetic (may be negative when the latest candle opens after now). -/
def historyGap (db : List Kline) (now : Nat) (query : HistoricalDataQuery) : Int :=
  (now : Int) - (((((historyDbKlines db query).getLast?).map Kline.openTime).getD 0 : Nat) : Int)

/-- BinanceHistoryService.getHistoricalKlines (success path), as a pure
function of the DB contents, the fetch oracle and the clock.  Result:
the served rows, paired with true when served from the DB (step-2 return)
and false when it fell through to the upstream REST fetch.  The
fire-and-forget storeKlines write does not affect the returned value and
is omitted. -/
def getHistoricalKlines (db : List Kline) (fetch : FetchOracle) (now : Nat)
    (query : HistoricalDataQuery) : List HistoricalKline × Bool :=
  if effectiveLimit query ≤ (historyDbKlines db query).length then
    if historyGap db now query ≤ (intervalDurationMs query.interval : Int) * 3 then
      ((historyDbKlines db query).map toHistoricalKline, true)
    else
      (fetch (toUpperCase query.symbol) query.interval query.startTime
        query.endTime (effectiveLimit query), false)
  else
    (fetch (toUpperCase query.symbol) query.interval query.startTime
      query.endTime (effectiveLimit query), false)

/-- response.ok of the WHATWG fetch API: status in the range 200..299. -/
def responseOk (status : Nat) : Bool := 200 ≤ status && status ≤ 299

/-- The error mapping of BinanceHistoryService.fetchFromBinance: none when
the upstream response is 2xx (no exception on this path), otherwise the
HTTP status of the surfaced HttpException — TOO_MANY_REQUESTS (429) when
the upstream status is 429, BAD_GATEWAY (502) otherwise. -/
def fetchFromBinanceError (status : Nat) : Option Nat :=
  if responseOk status then none
  else some (if status == 429 then 429 else 502)

/-!
BinanceStreamService: reconnect logic.

scheduleReconnect reads reconnectAttempts, gives up at
maxReconnectAttempts (10), otherwise schedules after
min(baseReconnectDelay * 2 ^ attempts, 30000) and increments the counter.
The open handler resets the counter to 0.  The WS readyState is collapsed
to a Bool (OPEN or not): the close event that triggers scheduleReconnect
leaves the socket non-OPEN, which is what isConnected reports.
-/

def maxReconnectAttempts : Nat := 10

def baseReconnectDelay : Nat := 1000

/-- BinanceStreamService.scheduleReconnect as a function of the attempt
counter: (delay scheduled if any, new counter value). -/
def scheduleReconnect (attempts : Nat) : Option Nat × Nat :=
  if maxReconnectAttempts ≤ attempts then (none, attempts)
  else (some (min (baseReconnectDelay * 2 ^ attempts) 30000), attempts + 1)

structure StreamConn where
  reconnectAttempts : Nat
  wsOpen : Bool
deriving Repr, DecidableEq

inductive WsEvent
  | opened
  | closed
deriving Repr, DecidableEq

/-- One WS lifecycle event: the open handler resets the counter; the close
handler calls scheduleReconnect.  Returns the delay scheduled, if any. -/
def wsStep (s : StreamConn) : WsEvent → StreamConn × Option Nat
  | .opened => ({ reconnectAttempts := 0, wsOpen := true }, none)
  | .closed =>
    let r := scheduleReconnect s.reconnectAttempts
    ({ reconnectAttempts := r.2, wsOpen := false }, r.1)

/-- Run a sequence of WS lifecycle events, collecting the scheduled
reconnect delays in order. -/
def wsRun (s : StreamConn) : List WsEvent → StreamConn × List Nat
  | [] => (s, [])
  | e :: rest =>
    let r := wsStep s e
    let rr := wsRun r.1 rest
    (rr.1, (r.2.elim [] (fun d => [d])) ++ rr.2)

/-- BinanceStreamService.isConnected: ws exists and readyState is OPEN. -/
def isConnected (s : StreamConn) : Bool := s.wsOpen

/-!
BinanceStreamService: per-key throttled broadcast (publishPrice and
scheduleThrottledBroadcast), modelled for one symbol and one kline
interval.  The throttle maps are keyed per symbol (price channel) and per
symbol:interval (kline channel) and entries for different keys never
interact, so a single-key model captures the per-key behaviour exactly.

Events are numbered by arrival (the index stands for the payload: the
pending maps always hold the latest arrival).  Timers are modelled by
their absolute fire time; the event loop fires a due timer before any
event with a later-or-equal timestamp is handled, and a one-shot timer
scheduled at now for delay d fires at now + d.  In the source the guard
now - last >= T and the delay T - (now - last) are JS integer arithmetic:
the guard is equivalent to last + T <= now, and the fire time
now + (T - (now - last)) equals last + T; the model uses these forms.
-/

def PRICE_THROTTLE_MS : Nat := 200

def KLINE_THROTTLE_MS : Nat := 500

inductive Chan
  | price
  | kline
deriving Repr, DecidableEq

/-- One broadcast: its wall-clock time, channel (priceUpdate or
klineUpdate) and the arrival index of the payload it carries. -/
structure Emit where
  time : Nat
  chan : Chan
  idx : Nat
deriving Repr, DecidableEq

structure ThrottleState where
  lastPriceBroadcast : Nat
  lastKlineBroadcast : Nat
  pendingPrice : Option Nat
  pendingKline : Option Nat
  priceTimer : Option Nat
  klineTimer : Option Nat
deriving Repr, DecidableEq

/-- Fresh maps: Map.get(key) || 0 yields 0, no pending values, no
timers. -/
def initThrottle : ThrottleState :=
  { lastPriceBroadcast := 0, lastKlineBroadcast := 0,
    pendingPrice := none, pendingKline := none,
    priceTimer := none, klineTimer := none }

inductive StreamEvent
  | price
  | kline
deriving Repr, DecidableEq

/-- The callback of the price-throttle setTimeout in publishPrice: delete
the timer entry, read the pending latest, and if present broadcast it and
stamp lastPriceBroadcast with the fire time.  pendingPrice is never
cleared by the source. -/
def firePriceTimer (f : Nat) (s : ThrottleState) : ThrottleState × List Emit :=
  match s.pendingPrice with
  | some i =>
    ({ s with priceTimer := none, lastPriceBroadcast := f }, [⟨f, .price, i⟩])
  | none => ({ s with priceTimer := none }, [])

/-- The callback of the kline-throttle setTimeout installed by
scheduleThrottledBroadcast: delete the timer entry, broadcast the pending
kline (stamping lastKlineBroadcast) and then the pending price (stamping
lastPriceBroadcast), each if present.  Neither pending entry is
cleared. -/
def fireKlineTimer (f : Nat) (s : ThrottleState) : ThrottleState × List Emit :=
  let s0 := { s with klineTimer := none }
  let r1 : ThrottleState × List Emit :=
    match s0.pendingKline with
    | some i => ({ s0 with lastKlineBroadcast := f }, [⟨f, .kline, i⟩])
    | none => (s0, [])
  let r2 : ThrottleState × List Emit :=
    match r1.1.pendingPrice with
    | some i => ({ r1.1 with lastPriceBroadcast := f }, [⟨f, .price, i⟩])
    | none => (r1.1, [])
  (r2.1, r1.2 ++ r2.2)

/-- Fire every timer due at wall-clock time t (fire time ≤ t), earliest
first; on a tie the price timer fires first.  Firing never arms a new
timer, so one pass over the two slots suffices. -/
def fireDue (t : Nat) (s : ThrottleState) : ThrottleState × List Emit :=
  match s.priceTimer, s.klineTimer with
  | some fp, some fk =>
    if fp ≤ t then
      if fk ≤ t then
        if fp ≤ fk then
          let r1 := firePriceTimer fp s
          let r2 := fireKlineTimer fk r1.1
          (r2.1, r1.2 ++ r2.2)
        else
          let r1 := fireKlineTimer fk s
          let r2 := firePriceTimer fp r1.1
          (r2.1, r1.2 ++ r2.2)
      else firePriceTimer fp s
    else if fk ≤ t then fireKlineTimer fk s else (s, [])
  | some fp, none => if fp ≤ t then firePriceTimer fp s else (s, [])
  | none, some fk => if fk ≤ t then fireKlineTimer fk s else (s, [])
  | none, none => (s, [])

/-- BinanceStreamService.publishPrice for one incoming event at time t
with arrival index i (persistence throttling is independent of the
broadcast paths and omitted).

kline event: store pending kline and pending price; if the kline window
elapsed, broadcast klineUpdate then priceUpdate immediately (stamping
both last-broadcast maps with t, the price throttle is not consulted);
else arm the kline timer for lastKlineBroadcast + 500 unless already
armed (scheduleThrottledBroadcast returns early when the timer map has
the key).

price (miniTicker/trade) event: store pending price; if the price window
elapsed broadcast immediately (the armed price timer, if any, is NOT
cleared — the source never cancels it here); else arm the price timer for
lastPriceBroadcast + 200 unless already armed. -/
def publishPrice (t i : Nat) (e : StreamEvent) (s : ThrottleState) :
    ThrottleState × List Emit :=
  match e with
  | .kline =>
    let s1 := { s with pendingKline := some i, pendingPrice := some i }
    if s.lastKlineBroadcast + KLINE_THROTTLE_MS ≤ t then
      ({ s1 with lastKlineBroadcast := t, lastPriceBroadcast := t },
        [⟨t, .kline, i⟩, ⟨t, .price, i⟩])
    else
      match s1.klineTimer with
      | some _ => (s1, [])
      | none =>
        ({ s1 with klineTimer := some (s.lastKlineBroadcast + KLINE_THROTTLE_MS) },
          [])
  | .price =>
    let s1 := { s with pendingPrice := some i }
    if s.lastPriceBroadcast + PRICE_THROTTLE_MS ≤ t then
      ({ s1 with lastPriceBroadcast := t }, [⟨t, .price, i⟩])
    else
      match s1.priceTimer with
      | some _ => (s1, [])
      | none =>
        ({ s1 with priceTimer := some (s.lastPriceBroadcast + PRICE_THROTTLE_MS) },
          [])

/-- One event-loop step: fire the timers that came due, then handle the
event. -/
def throttleStep (s : ThrottleState) (i t : Nat) (e : StreamEvent) :
    ThrottleState × List Emit :=
  let r1 := fireDue t s
  let r2 := publishPrice t i e r1.1
  (r2.1, r1.2 ++ r2.2)

def runThrottleAux : ThrottleState → Nat → List (Nat × StreamEvent) →
    ThrottleState × List Emit
  | s, _, [] => (s, [])
  | s, i, (t, e) :: rest =>
    let r1 := throttleStep s i t e
    let r2 := runThrottleAux r1.1 (i + 1) rest
    (r2.1, r1.2 ++ r2.2)

/-- Run a timed trace of events (numbered from 0) from fresh maps. -/
def runThrottle (tr : List (Nat × StreamEvent)) : ThrottleState × List Emit :=
  runThrottleAux initThrottle 0 tr

/-- Run a trace, then let the clock advance to tEnd so that pending
timers fire. -/
def runThrottleFlush (tr : List (Nat × StreamEvent)) (tEnd : Nat) : List Emit :=
  let r := runThrottle tr
  r.2 ++ (fireDue tEnd r.1).2

/-- The priceUpdate broadcasts of an emission list. -/
def priceEmits (l : List Emit) : List Emit := l.filter (fun e => e.chan == .price)

/-- The klineUpdate broadcasts of an emission list. -/
def klineEmits (l : List Emit) : List Emit := l.filter (fun e => e.chan == .kline)

/-- Event times never decrease along a trace. -/
def timesMono (tr : List (Nat × StreamEvent)) : Prop :=
  List.Chain' (fun a b => a.1 ≤ b.1) tr

/-- A trace with no kline events for the symbol. -/
def priceOnly (tr : List (Nat × StreamEvent)) : Prop :=
  ∀ x ∈ tr, x.2 = StreamEvent.price

/-!
PriceGateway.handleSubscribe.  The MessageBody payload is an arbitrary
runtime JS value; JSON.parse is the platform primitive and is modelled by
an oracle String → Option Js (none when it throws).
-/

/-- Runtime JS values as relevant to the subscribe handler. -/
inductive Js
  | null
  | jsUndefined
  | bool (b : Bool)
  | num (n : Int)
  | str (s : String)
  | obj (fields : List (String × Js))
  | arr (elems : List Js)

/-- JS truthiness. -/
def jsTruthy : Js → Bool
  | .null => false
  | .jsUndefined => false
  | .bool b => b
  | .num n => n != 0
  | .str s => s != ""
  | .obj _ => true
  | .arr _ => true

/-- typeof v === 'string'. -/
def jsIsString : Js → Bool
  | .str _ => true
  | _ => false

/-- typeof v === 'object' (true for objects, arrays and null). -/
def jsIsObjectType : Js → Bool
  | .obj _ => true
  | .arr _ => true
  | .null => true
  | _ => false

/-- Property access v.symbol: throws (TypeError) on null/undefined,
yields the field on objects (undefined when absent), undefined on every
other value. -/
def jsGetSymbol : Js → Except String Js
  | .null => .error "Cannot read properties of null (reading symbol)"
  | .jsUndefined => .error "Cannot read properties of undefined (reading symbol)"
  | .obj fields => .ok ((fields.lookup "symbol").getD .jsUndefined)
  | _ => .ok .jsUndefined

/-- The acknowledgement returned to the client. -/
inductive SubscribeReply
  | success (message symbol : String)
  | error (message : String)
deriving Repr, DecidableEq

/-- Outcome of handleSubscribe: the reply, and the room the client was
joined to, if any. -/
structure SubscribeResult where
  reply : SubscribeReply
  joined : Option String
deriving Repr, DecidableEq

/-- Shared tail of handleSubscribe once a candidate symbol value is in
hand: if (!symbol || typeof symbol !== 'string') reply an error and join
nothing; else join the uppercased room and acknowledge with it. -/
def finishSubscribe (symbol : Js) : SubscribeResult :=
  if !jsTruthy symbol || !jsIsString symbol then
    { reply := .error "Symbol is required", joined := none }
  else
    match symbol with
    | .str s =>
      let room := toUpperCase s
      { reply := .success ("Subscribed to " ++ room) room, joined := some room }
    | _ => { reply := .error "Symbol is required", joined := none }

/-- The symbol-extraction phase of handleSubscribe (assignment of the
local variable symbol): for a string payload both JSON.parse and the
subsequent read of parsed.symbol run inside the inner try, so if either
throws (unparsable string, or a TypeError because the parse result is
null) the inner catch makes the raw string the symbol.  A truthy object
payload contributes payload.symbol (which cannot throw on an object or
array); any other payload is rejected as an invalid format — the only
way extraction surfaces an error. -/
def extractSymbol (parse : String → Option Js) : Js → Except String Js
  | .str s =>
    (match parse s with
     | some parsed =>
       (match jsGetSymbol parsed with
        | .ok v => .ok v
        | .error _ => .ok (.str s))
     | none => .ok (.str s))
  | p =>
    if jsTruthy p && jsIsObjectType p then jsGetSymbol p
    else .error "Invalid payload format. Expected \x7b symbol: string \x7d"

/-- PriceGateway.handleSubscribe (the variant under realtime/ with
explicit status replies).  parse is the JSON.parse oracle; serverReady
models this.server being initialised.  An extraction error (the
invalid-payload early return) becomes an error reply with no join. -/
def handleSubscribe (parse : String → Option Js) (serverReady : Bool)
    (payload : Js) : SubscribeResult :=
  if !serverReady then
    { reply := .error "Server not initialized", joined := none }
  else
    match extractSymbol parse payload with
    | .ok v => finishSubscribe v
    | .error msg => { reply := .error msg, joined := none }

/-!
AppController.getHealth.  The spec names the two connection objects
upstream (the Binance feed) and broker (the Redis client); the source
fields are binance and redis.
-/

/-- WS readyState of the upstream feed socket. -/
inductive WsReadyState
  | connecting
  | wsopen
  | closing
  | wsclosed
deriving Repr, DecidableEq

/-- Environment read by the health endpoint. -/
structure HealthDeps where
  wsExists : Bool
  wsReadyState : WsReadyState
  redisStatus : String
deriving Repr, DecidableEq

/-- BinanceStreamService.isConnected(): this.ws && readyState === OPEN. -/
def feedIsConnected (d : HealthDeps) : Bool :=
  d.wsExists && d.wsReadyState == .wsopen

/-- RedisService.isConnected(): pubClient.status === 'ready'. -/
def redisIsConnected (d : HealthDeps) : Bool :=
  d.redisStatus == "ready"

/-- The health response body. -/
structure HealthBody where
  status : String
  timestamp : String
  binanceConnected : Bool
  redisConnected : Bool
deriving Repr, DecidableEq

/-- AppController.getHealth: status ok, current timestamp, and the two
connected flags (spec names: upstream.connected, broker.connected). -/
def getHealth (d : HealthDeps) (nowIso : String) : HealthBody :=
  { status := "ok"
    timestamp := nowIso
    binanceConnected := feedIsConnected d
    redisConnected := redisIsConnected d }

/-!
Proof-layer definitions: concrete data for evaluations, the spec-side
reading of the range query for the refinement comparison, and the
invariants used to reason about traces of the throttle machine.
-/

/-- Delay scheduled before the (k+1)-th reconnect attempt. -/
def reconnectDelay (k : Nat) : Nat := min (baseReconnectDelay * 2 ^ k) 30000

/-- A closed 1m candle row for BTCUSDT at openTime 1, used in concrete
evaluations. -/
def sampleRow1 : Kline :=
  { symbol := "BTCUSDT"
    interval := "1m"
    openTime := 1
    closeTime := 2
    openPrice := "1"
    highPrice := "1"
    lowPrice := "1"
    closePrice := "1"
    volume := "1"
    quoteVolume := "1"
    trades := 1
    takerBuyBaseVolume := "1"
    takerBuyQuoteVolume := "1"
    isClosed := true }

def sampleRow2 : Kline := { sampleRow1 with openTime := 2, closeTime := 3 }

def sampleRow3 : Kline := { sampleRow1 with openTime := 3, closeTime := 4 }

def sampleDb : List Kline := [sampleRow1, sampleRow2, sampleRow3]

/-- A closed stream kline for BTCUSDT 1m at openTime 60000. -/
def sampleClosedK : StreamKline :=
  { t := 60000
    T := 119999
    o := "1"
    h := "3"
    l := "1"
    c := "43"
    v := "10"
    q := "10"
    n := 5
    x := true
    V := "5"
    Q := "5" }

/-- A later still-open stream update for the same key. -/
def sampleOpenK : StreamKline := { sampleClosedK with x := false, c := "42" }

/-- Modelled from the spec sentence of the claim (refinement comparison
side, NOT from the source): when startTime or endTime is supplied
(Option.isSome, regardless of its value), return the matching rows whose
openTime lies in the given closed range, oldest first, truncated to
limit. -/
def findKlinesRangeSpec (db : List Kline) (symbol interval : String)
    (startTime endTime : Option Nat) (limit : Nat) : List Kline :=
  let inRange := fun (r : Kline) =>
    (match startTime with | some v => Nat.ble v r.openTime | none => true) &&
    (match endTime with | some v => Nat.ble r.openTime v | none => true)
  ((db.filter (fun r =>
      r.symbol == toUpperCase symbol && r.interval == interval &&
        inRange r)).insertionSort klineAsc).take limit

/-- A range query (truthy startTime) for one BTCUSDT 1m candle. -/
def staleRangeQuery : HistoricalDataQuery :=
  { symbol := "BTCUSDT"
    interval := "1m"
    startTime := some 1
    endTime := none
    limit := some 1 }

/-- A fetch oracle whose upstream returns no rows (distinguishable from
the DB rows). -/
def emptyFetch : FetchOracle := fun _ _ _ _ _ => []

/-- Summary of the most recent priceUpdate broadcast for the key:
(wall-clock time, arrival index of the payload); none before the first
broadcast. -/
abbrev PrevP : Type := Option (Nat × Nat)

/-- The time of the previous price broadcast (the throttle map default
Map.get || 0 makes this 0 before the first one). -/
def prevPTime : PrevP → Nat
  | some p => p.1
  | none => 0

/-- The previous broadcast carried an arrival index below n (trivially
true before the first broadcast). -/
def prevPIdxLt : PrevP → Nat → Prop
  | some p, n => p.2 < n
  | none, _ => True

/-- Emissions are all priceUpdates, spaced at least the price throttle
apart, with strictly increasing arrival indices, starting after the given
previous broadcast. -/
def PriceChainFrom : PrevP → List Emit → Prop
  | _, [] => True
  | p, e :: rest =>
    e.chan = Chan.price ∧ prevPTime p + PRICE_THROTTLE_MS ≤ e.time ∧
      prevPIdxLt p e.idx ∧ PriceChainFrom (some (e.time, e.idx)) rest

/-- The previous-broadcast summary after appending further emissions. -/
def prevAfter : PrevP → List Emit → PrevP
  | p, [] => p
  | _, e :: rest => prevAfter (some (e.time, e.idx)) rest

/-- Every emitted arrival index is below n. -/
def IdxLt (l : List Emit) (n : Nat) : Prop := ∀ e ∈ l, e.idx < n

/-- Invariant of the throttle state along a price-only trace: prev is the
last price broadcast, T the current wall-clock, n the number of events
received so far. -/
structure PriceInv (s : ThrottleState) (prev : PrevP) (T n : Nat) : Prop where
  kt : s.klineTimer = none
  lp : s.lastPriceBroadcast = prevPTime prev
  lpT : prevPTime prev ≤ T
  pend : s.pendingPrice = if n = 0 then none else some (n - 1)
  prevIdx : prevPIdxLt prev n
  doneIdx : s.priceTimer = none → n ≠ 0 → ∃ t, prev = some (t, n - 1)
  timer : ∀ f, s.priceTimer = some f →
    f = prevPTime prev + PRICE_THROTTLE_MS ∧ T < f ∧ n ≠ 0 ∧ prevPIdxLt prev (n - 1)

/-- klineUpdate emissions spaced at least the kline throttle apart,
starting after a previous kline broadcast at time k (0 initially, the
throttle map default). -/
def KlineChainFrom : Nat → List Emit → Prop
  | _, [] => True
  | k, e :: rest =>
    e.chan = Chan.kline ∧ k + KLINE_THROTTLE_MS ≤ e.time ∧ KlineChainFrom e.time rest

/-- The time of the last kline broadcast after appending emissions. -/
def kAfter : Nat → List Emit → Nat
  | k, [] => k
  | _, e :: rest => kAfter e.time rest

/-- Invariant of the kline channel along an arbitrary trace: kE is the
time of the last kline broadcast (0 initially), T the current
wall-clock. -/
structure KlineInv (s : ThrottleState) (kE T : Nat) : Prop where
  lk : s.lastKlineBroadcast = kE
  lkT : kE ≤ T
  timer : ∀ f, s.klineTimer = some f →
    f = kE + KLINE_THROTTLE_MS ∧ T < f ∧ s.pendingKline.isSome = true

/-- Event times of the trace are at least T and nondecreasing. -/
def timesFrom (T : Nat) : List (Nat × StreamEvent) → Prop
  | [] => True
  | (t, _) :: rest => T ≤ t ∧ timesFrom t rest

/-- The time of the last event of the trace (T for the empty trace). -/
def lastTimeFrom (T : Nat) : List (Nat × StreamEvent) → Nat
  | [] => T
  | (t, _) :: rest => lastTimeFrom t rest

/-!
Theorems.  Helper lemmas come first, then one theorem per claim (with a
witness or counterexample where applicable).
-/

theorem toNat_upChar_lower {c : Char} (h : 97 ≤ c.toNat ∧ c.toNat ≤ 122) :
    (upChar c).toNat = c.toNat - 32 := by
  have hval : (c.toNat - 32).isValidChar := by
    left
    omega
  rw [upChar, if_pos h, Char.ofNat, dif_pos hval]
  simp [Char.ofNatAux, Char.toNat, UInt32.toNat, BitVec.toNat_ofNatLt]

theorem upChar_idem (c : Char) : upChar (upChar c) = upChar c := by
  by_cases h : 97 ≤ c.toNat ∧ c.toNat ≤ 122
  · have h2 : (upChar c).toNat = c.toNat - 32 := toNat_upChar_lower h
    have hno : ¬ (97 ≤ (upChar c).toNat ∧ (upChar c).toNat ≤ 122) := by
      rw [h2]; omega
    conv_lhs => rw [upChar]
    rw [if_neg hno]
  · have hc : upChar c = c := by rw [upChar, if_neg h]
    simp only [hc]

theorem toUpperCase_idem (s : String) :
    toUpperCase (toUpperCase s) = toUpperCase s := by
  unfold toUpperCase
  congr 1
  rw [List.map_map]
  exact List.map_congr_left (fun c _ => upChar_idem c)

theorem findRow_upsertKline_self (db : List Kline) (data : Kline) :
    findRow (upsertKline db data) (klineKey data) = some data := by
  induction db with
  | nil => simp [upsertKline, findRow, List.find?]
  | cons r rest ih =>
    by_cases h : klineKey r = klineKey data
    · simp [upsertKline, h, findRow, List.find?]
    · simpa [upsertKline, h, findRow, List.find?] using ih

theorem findRow_upsertKline_other (db : List Kline) (data : Kline)
    (key : String × String × Nat) (h : key ≠ klineKey data) :
    findRow (upsertKline db data) key = findRow db key := by
  have hdk : klineKey data ≠ key := fun hh => h hh.symm
  induction db with
  | nil =>
    simp [upsertKline, findRow, List.find?, hdk]
  | cons r rest ih =>
    by_cases hr : klineKey r = klineKey data
    · have hrk : klineKey r ≠ key := by rw [hr]; exact hdk
      simp [upsertKline, hr, findRow, List.find?, hdk, hrk]
    · by_cases hrk : klineKey r = key
      · simp [upsertKline, hr, findRow, List.find?, hrk, h]
      · simpa [upsertKline, hr, findRow, List.find?, hrk] using ih

/-- C1 counterexample: store a closed candle for (BTCUSDT, 1m, 60000),
then upsert a stream update with isClosed=false for the same key — the
served row flips back to open (isClosed=false) and its close price
changes, contradicting the claimed immutability of closed candles. -/
theorem C1_counterexample :
    (findRow
        (persistKlineFromStream
          (persistKlineFromStream [] "BTCUSDT" "1m" sampleClosedK)
          "BTCUSDT" "1m" sampleOpenK)
        ("BTCUSDT", "1m", 60000)).map (fun r => (r.isClosed, r.closePrice))
      = some (false, "42") := by
  decide

/-- C1 (amended): upsertKline has last-writer-wins semantics — after
persistKlineFromStream the row served for the stream key is exactly the
row built from that latest update (in particular a subsequent upsert with
isClosed=false flips an already-closed row back to open), and rows under
every other key are untouched.  Re-delivering the same update is
therefore idempotent, but later conflicting updates are not ignored. -/
theorem persistKlineFromStream_last_writer_wins
    (db : List Kline) (symbol interval : String) (k : StreamKline) :
    findRow (persistKlineFromStream db symbol interval k)
        (toUpperCase symbol, interval, k.t) = some (streamRow symbol interval k) ∧
    ∀ key, key ≠ (toUpperCase symbol, interval, k.t) →
      findRow (persistKlineFromStream db symbol interval k) key = findRow db key := by
  constructor
  · exact findRow_upsertKline_self db (streamRow symbol interval k)
  · intro key hkey
    exact findRow_upsertKline_other db (streamRow symbol interval k) key hkey

theorem persistKlineFromStream_last_writer_wins_witness :
    (("X", "1m", 0) : String × String × Nat) ≠ ("BTCUSDT", "1m", 60000) ∧
    findRow (persistKlineFromStream [] "BTCUSDT" "1m" sampleClosedK) ("X", "1m", 0)
      = findRow [] ("X", "1m", 0) := by
  refine ⟨by decide, ?_⟩
  exact (persistKlineFromStream_last_writer_wins [] "BTCUSDT" "1m"
    sampleClosedK).2 ("X", "1m", 0) (by decide)

/-- C5 counterexample: an unknown symbol makes the upstream klines REST
endpoint answer 400, and fetchFromBinance surfaces that as 502
(BadGateway), not the 404 the claim requires for an unknown symbol; the
history read path has no 404 mapping at all. -/
theorem C5_counterexample :
    fetchFromBinanceError 400 = some 502 ∧ (502 : Nat) ≠ 404 := by
  decide

/-- C5 (amended): on the history read path a 2xx upstream response never
raises, the surfaced status is 429 exactly when the upstream status was
429 (and not 2xx), and every other non-2xx upstream status — including
the 400 an unknown symbol produces — is surfaced as 502; 429 and 502 are
the only statuses this path can surface. -/
theorem fetchFromBinance_error_mapping (status : Nat) :
    (fetchFromBinanceError status = none ↔ responseOk status = true) ∧
    (fetchFromBinanceError status = some 429 ↔
      responseOk status = false ∧ status = 429) ∧
    (responseOk status = false → status ≠ 429 →
      fetchFromBinanceError status = some 502) ∧
    ∀ c, fetchFromBinanceError status = some c → c = 429 ∨ c = 502 := by
  unfold fetchFromBinanceError
  by_cases h : responseOk status = true
  · simp [h]
  · have h2 : responseOk status = false := by simpa using h
    by_cases h3 : status = 429
    · subst h3
      simp [h2]
    · simp [h2, h3]

theorem fetchFromBinance_error_mapping_witness :
    responseOk 500 = false ∧ (500 : Nat) ≠ 429 ∧
      fetchFromBinanceError 500 = some 502 :=
  ⟨by decide, by decide,
    (fetchFromBinance_error_mapping 500).2.2.1 (by decide) (by decide)⟩

/-- C9: GET /health always answers with a status field ("ok"), the
current timestamp, and the two connection objects; the upstream (binance)
connected flag is true exactly when the feed socket exists and its
readyState is OPEN, and the broker (redis) connected flag is true exactly
when the Redis client status is ready. -/
theorem getHealth_spec (d : HealthDeps) (nowIso : String) :
    (getHealth d nowIso).status = "ok" ∧
    (getHealth d nowIso).timestamp = nowIso ∧
    ((getHealth d nowIso).binanceConnected = true ↔
      d.wsExists = true ∧ d.wsReadyState = WsReadyState.wsopen) ∧
    ((getHealth d nowIso).redisConnected = true ↔ d.redisStatus = "ready") := by
  refine ⟨rfl, rfl, ?_, ?_⟩
  · simp [getHealth, feedIsConnected]
  · simp [getHealth, redisIsConnected]

theorem getHealth_spec_witness :
    (getHealth ⟨true, WsReadyState.wsopen, "ready"⟩ "2026-01-01").binanceConnected
        = true ∧
    (getHealth ⟨true, WsReadyState.wsopen, "ready"⟩ "2026-01-01").redisConnected
        = true :=
  ⟨(getHealth_spec ⟨true, WsReadyState.wsopen, "ready"⟩ "2026-01-01").2.2.1.mpr
      ⟨rfl, rfl⟩,
    (getHealth_spec ⟨true, WsReadyState.wsopen, "ready"⟩ "2026-01-01").2.2.2.mpr
      rfl⟩

/-- C10: getHistoricalKlines is case-insensitive in the symbol — querying
with symbol s and with s.toUpperCase() produce identical results for
every DB state, fetch behaviour, clock and remaining parameters, because
both the DB filter and the upstream request use the uppercased symbol. -/
theorem getHistoricalKlines_symbol_case_insensitive (db : List Kline)
    (fetch : FetchOracle) (now : Nat) (q : HistoricalDataQuery) :
    getHistoricalKlines db fetch now { q with symbol := toUpperCase q.symbol }
      = getHistoricalKlines db fetch now q := by
  simp only [getHistoricalKlines, historyDbKlines, historyGap, effectiveLimit,
    toUpperCase_idem]

/-- C2 counterexample: with a time range supplied (truthy startTime) and
a full-limit DB result whose latest candle is stale, getHistoricalKlines
still falls through to the upstream REST fetch and returns the upstream
rows, not the DB rows — the claim allows the staleness fall-through only
when no time range was given. -/
theorem C2_counterexample :
    truthy staleRangeQuery.startTime = true ∧
    (historyDbKlines [sampleRow1] staleRangeQuery).length
      = effectiveLimit staleRangeQuery ∧
    (getHistoricalKlines [sampleRow1] emptyFetch 1000000000000 staleRangeQuery).2
      = false ∧
    (getHistoricalKlines [sampleRow1] emptyFetch 1000000000000 staleRangeQuery).1
      ≠ (historyDbKlines [sampleRow1] staleRangeQuery).map toHistoricalKline := by
  decide

/-- C2 (amended): getHistoricalKlines falls through to the upstream REST
fetch exactly when the DB query returned fewer than the effective limit
rows, or when now - latest.openTime > 3·duration(interval) — whether or
not a time range was given; in every other case it returns the DB rows,
and whenever it serves DB data (range or not) the returned series
satisfies now - last.openTime ≤ 3·duration(interval). -/
theorem getHistoricalKlines_fallthrough_freshness (db : List Kline)
    (fetch : FetchOracle) (now : Nat) (q : HistoricalDataQuery) :
    ((getHistoricalKlines db fetch now q).2 = false ↔
      ((historyDbKlines db q).length < effectiveLimit q ∨
        (intervalDurationMs q.interval : Int) * 3 < historyGap db now q)) ∧
    ((getHistoricalKlines db fetch now q).2 = true →
      (getHistoricalKlines db fetch now q).1
          = (historyDbKlines db q).map toHistoricalKline ∧
      ∀ lastRow ∈ ((getHistoricalKlines db fetch now q).1).getLast?,
        (now : Int) - (lastRow.openTime : Int)
          ≤ (intervalDurationMs q.interval : Int) * 3) ∧
    ((getHistoricalKlines db fetch now q).2 = false →
      (getHistoricalKlines db fetch now q).1
        = fetch (toUpperCase q.symbol) q.interval q.startTime q.endTime
            (effectiveLimit q)) := by
  by_cases h1 : effectiveLimit q ≤ (historyDbKlines db q).length
  · by_cases h2 : historyGap db now q ≤ (intervalDurationMs q.interval : Int) * 3
    · rw [getHistoricalKlines, if_pos h1, if_pos h2]
      have hno : ¬((historyDbKlines db q).length < effectiveLimit q ∨
          (intervalDurationMs q.interval : Int) * 3 < historyGap db now q) := by
        push_neg
        exact ⟨h1, h2⟩
      refine ⟨by simp [hno], ?_, by simp⟩
      intro _
      refine ⟨rfl, ?_⟩
      intro lastRow hmem
      simp only [List.getLast?_map, Option.mem_def] at hmem
      match hlast : (historyDbKlines db q).getLast? with
      | none =>
        rw [hlast] at hmem
        simp at hmem
      | some lk =>
        rw [hlast] at hmem
        rw [Option.map_some'] at hmem
        rw [Option.some.injEq] at hmem
        subst hmem
        show (now : Int) - (lk.openTime : Int)
          ≤ (intervalDurationMs q.interval : Int) * 3
        have hgap : historyGap db now q = (now : Int) - (lk.openTime : Int) := by
          unfold historyGap
          rw [hlast]
          simp
        rw [← hgap]
        exact h2
    · rw [getHistoricalKlines, if_pos h1, if_neg h2]
      exact ⟨by simp [not_le.mp h2], by simp, fun _ => rfl⟩
  · rw [getHistoricalKlines, if_neg h1]
    exact ⟨by simp [not_le.mp h1], by simp, fun _ => rfl⟩

theorem getHistoricalKlines_fallthrough_freshness_witness :
    (getHistoricalKlines [sampleRow1] emptyFetch 100000
        { staleRangeQuery with startTime := none }).2 = true ∧
    (getHistoricalKlines [sampleRow1] emptyFetch 100000
        { staleRangeQuery with startTime := none }).1
      = (historyDbKlines [sampleRow1]
          { staleRangeQuery with startTime := none }).map toHistoricalKline :=
  ⟨by decide,
    ((getHistoricalKlines_fallthrough_freshness [sampleRow1] emptyFetch 100000
      { staleRangeQuery with startTime := none }).2.1 (by decide)).1⟩

/-- Helper for C6: running k consecutive close events from attempt
counter a (≤ 10): the scheduled delays are min(base·2^(a+j), 30s) for
j < min(k, 10-a), the counter ends at min(a+k, 10), and the socket is
non-open as soon as one close was processed. -/
theorem wsRun_replicate_closed (k : Nat) :
    ∀ (a : Nat) (b : Bool), a ≤ 10 →
    (wsRun ⟨a, b⟩ (List.replicate k WsEvent.closed)).2
        = (List.range (min k (10 - a))).map (fun j => reconnectDelay (a + j)) ∧
    (wsRun ⟨a, b⟩ (List.replicate k WsEvent.closed)).1.reconnectAttempts
        = min (a + k) 10 ∧
    (wsRun ⟨a, b⟩ (List.replicate k WsEvent.closed)).1.wsOpen
        = (if k = 0 then b else false) := by
  induction k with
  | zero =>
    intro a b ha
    refine ⟨by simp [wsRun], ?_, by simp [wsRun]⟩
    show a = min (a + 0) 10
    omega
  | succ k ih =>
    intro a b ha
    have hrep : List.replicate (k + 1) WsEvent.closed
        = WsEvent.closed :: List.replicate k WsEvent.closed := rfl
    rw [hrep]
    by_cases h10 : 10 ≤ a
    · have ha10 : a = 10 := le_antisymm ha h10
      subst ha10
      have hstep : wsStep ⟨10, b⟩ WsEvent.closed
          = (⟨10, false⟩, none) := by
        simp [wsStep, scheduleReconnect, maxReconnectAttempts]
      obtain ⟨ih1, ih2, ih3⟩ := ih 10 false (le_refl 10)
      simp only [wsRun, hstep, ih1, ih2, ih3]
      refine ⟨by simp, by omega, by simp⟩
    · have hlt : a < 10 := lt_of_not_le h10
      have hstep : wsStep ⟨a, b⟩ WsEvent.closed
          = (⟨a + 1, false⟩, some (reconnectDelay a)) := by
        simp [wsStep, scheduleReconnect, maxReconnectAttempts, reconnectDelay,
          Nat.not_le.mpr hlt]
      obtain ⟨ih1, ih2, ih3⟩ := ih (a + 1) false (by omega)
      simp only [wsRun, hstep, ih1, ih2, ih3]
      refine ⟨?_, by omega, by simp⟩
      have hmin : min (k + 1) (10 - a) = min k (10 - (a + 1)) + 1 := by omega
      rw [hmin, List.range_succ_eq_map]
      simp only [List.map_cons, List.map_map, Option.elim, Nat.add_zero,
        List.singleton_append]
      congr 1
      apply List.map_congr_left
      intro j _
      simp only [Function.comp_apply]
      congr 1
      omega

/-- C6: after a successful open the attempt counter is 0, the k-th
consecutive failed connection (k counted from 0, k < 10) schedules the
next reconnect after min(1000·2^k, 30000) ms — so k consecutive failures
schedule exactly the delays min(1000·2^j, 30000) for j < min(k, 10) and
no reconnect is scheduled beyond the 10th attempt — and once any failure
occurred the health surface reports connected=false. -/
theorem reconnect_backoff_spec (s : StreamConn) (k : Nat) :
    (wsStep s WsEvent.opened).1.reconnectAttempts = 0 ∧
    (wsStep s WsEvent.opened).1.wsOpen = true ∧
    (wsRun (wsStep s WsEvent.opened).1 (List.replicate k WsEvent.closed)).2
      = (List.range (min k 10)).map
          (fun j => min (baseReconnectDelay * 2 ^ j) 30000) ∧
    (0 < k →
      isConnected
        (wsRun (wsStep s WsEvent.opened).1 (List.replicate k WsEvent.closed)).1
        = false) := by
  have hopen : (wsStep s WsEvent.opened).1 = ⟨0, true⟩ := rfl
  obtain ⟨h1, _, h3⟩ := wsRun_replicate_closed k 0 true (by omega)
  rw [hopen]
  refine ⟨rfl, rfl, ?_, ?_⟩
  · rw [h1]
    simp [reconnectDelay]
  · intro hk
    rw [isConnected, h3, if_neg (by omega)]

theorem reconnect_backoff_spec_witness :
    0 < 12 ∧
    isConnected
      (wsRun (wsStep ⟨5, false⟩ WsEvent.opened).1
        (List.replicate 12 WsEvent.closed)).1 = false :=
  ⟨by decide, (reconnect_backoff_spec ⟨5, false⟩ 12).2.2.2 (by decide)⟩

/-- C7 counterexample: startTime=0 is supplied (isSome) yet falsy in JS,
so findKlines treats the query as having no time range and returns the
most recent rows instead of the oldest rows of the range [0, infinity) —
the claim predicts the range behaviour whenever startTime or endTime is
supplied. -/
theorem C7_counterexample :
    (some 0 : Option Nat).isSome = true ∧
    (findKlines sampleDb "BTCUSDT" "1m" (some 0) none 2).map Kline.openTime
      = [2, 3] ∧
    (findKlinesRangeSpec sampleDb "BTCUSDT" "1m" (some 0) none 2).map
        Kline.openTime = [1, 2] ∧
    findKlines sampleDb "BTCUSDT" "1m" (some 0) none 2
      ≠ findKlinesRangeSpec sampleDb "BTCUSDT" "1m" (some 0) none 2 := by
  decide

theorem mem_take_or_drop {α : Type} (n : Nat) {l : List α} {a : α} (h : a ∈ l) :
    a ∈ l.take n ∨ a ∈ l.drop n := by
  have h2 : a ∈ l.take n ++ l.drop n := by
    rw [List.take_append_drop]
    exact h
  exact List.mem_append.mp h2

theorem sorted_take_drop {l : List Kline} {r : Kline → Kline → Prop}
    (hs : List.Pairwise r l) (n : Nat) :
    ∀ a ∈ l.take n, ∀ b ∈ l.drop n, r a b := by
  have hs2 : List.Pairwise r (l.take n ++ l.drop n) := by
    rw [List.take_append_drop]
    exact hs
  exact (List.pairwise_append.mp hs2).2.2

/-- C7 (amended): findKlines returns rows matching (uppercased symbol,
interval), at most limit of them, ascending by openTime, in both modes —
but the two modes are selected by JS truthiness, not by presence: with a
truthy (nonzero) startTime or endTime it returns the oldest rows whose
openTime lies within the truthy bounds (all of them when fewer than
limit); with no truthy bound it returns exactly the min(limit, matching)
most recent rows, reversed into chronological order. -/
theorem findKlines_spec (db : List Kline) (symbol interval : String)
    (startTime endTime : Option Nat) (limit : Nat) :
    (∀ r ∈ findKlines db symbol interval startTime endTime limit,
        r ∈ db ∧ r.symbol = toUpperCase symbol ∧ r.interval = interval) ∧
    (findKlines db symbol interval startTime endTime limit).length ≤ limit ∧
    List.Pairwise (fun a b => a.openTime ≤ b.openTime)
      (findKlines db symbol interval startTime endTime limit) ∧
    ((truthy startTime || truthy endTime) = true →
      (∀ r ∈ findKlines db symbol interval startTime endTime limit,
          (truthy startTime = true → startTime.getD 0 ≤ r.openTime) ∧
          (truthy endTime = true → r.openTime ≤ endTime.getD 0)) ∧
      (∀ q ∈ db, q.symbol = toUpperCase symbol → q.interval = interval →
        inOpenTimeRange startTime endTime q = true →
        q ∉ findKlines db symbol interval startTime endTime limit →
        ∀ r ∈ findKlines db symbol interval startTime endTime limit,
          r.openTime ≤ q.openTime) ∧
      ((findKlines db symbol interval startTime endTime limit).length < limit →
        ∀ q ∈ db, q.symbol = toUpperCase symbol → q.interval = interval →
          inOpenTimeRange startTime endTime q = true →
          q ∈ findKlines db symbol interval startTime endTime limit)) ∧
    ((truthy startTime || truthy endTime) = false →
      (findKlines db symbol interval startTime endTime limit).length
          = min limit (db.filter (fun r =>
              r.symbol == toUpperCase symbol && r.interval == interval)).length ∧
      (∀ q ∈ db, q.symbol = toUpperCase symbol → q.interval = interval →
        q ∉ findKlines db symbol interval startTime endTime limit →
        ∀ r ∈ findKlines db symbol interval startTime endTime limit,
          q.openTime ≤ r.openTime)) := by
  by_cases hrange : (truthy startTime || truthy endTime) = true
  · -- range mode
    have hres : findKlines db symbol interval startTime endTime limit
        = (((db.filter (fun r => r.symbol == toUpperCase symbol &&
              r.interval == interval)).filter
                (inOpenTimeRange startTime endTime)).insertionSort
                  klineAsc).take limit := by
      rw [findKlines, if_pos hrange]
    have hsorted : List.Pairwise klineAsc
        (((db.filter (fun r => r.symbol == toUpperCase symbol &&
            r.interval == interval)).filter
              (inOpenTimeRange startTime endTime)).insertionSort klineAsc) :=
      List.sorted_insertionSort klineAsc _
    have hmem : ∀ r ∈ findKlines db symbol interval startTime endTime limit,
        r ∈ db ∧ (r.symbol == toUpperCase symbol && r.interval == interval) = true ∧
          inOpenTimeRange startTime endTime r = true := by
      intro r hr
      rw [hres] at hr
      have hr2 := (List.take_sublist _ _).subset hr
      rw [List.mem_insertionSort] at hr2
      rw [List.mem_filter] at hr2
      obtain ⟨hr3, hr4⟩ := hr2
      rw [List.mem_filter] at hr3
      exact ⟨hr3.1, hr3.2, hr4⟩
    refine ⟨?_, ?_, ?_, ?_, ?_⟩
    · intro r hr
      obtain ⟨h1, h2, _⟩ := hmem r hr
      rw [Bool.and_eq_true, beq_iff_eq, beq_iff_eq] at h2
      exact ⟨h1, h2.1, h2.2⟩
    · rw [hres]
      exact (List.length_take _ _).le.trans (Nat.min_le_left _ _)
    · rw [hres]
      exact (hsorted.sublist (List.take_sublist _ _)).imp (fun h => h)
    · intro _
      refine ⟨?_, ?_, ?_⟩
      · intro r hr
        obtain ⟨_, _, h3⟩ := hmem r hr
        rw [inOpenTimeRange, Bool.and_eq_true, Bool.or_eq_true, Bool.or_eq_true]
          at h3
        constructor
        · intro hst
          rcases h3.1 with hh | hh
          · rw [Bool.not_eq_true'] at hh
            rw [hst] at hh
            cases hh
          · exact Nat.le_of_ble_eq_true hh
        · intro het
          rcases h3.2 with hh | hh
          · rw [Bool.not_eq_true'] at hh
            rw [het] at hh
            cases hh
          · exact Nat.le_of_ble_eq_true hh
      · intro q hq hqs hqi hqr hnot r hr
        have hqmem : q ∈ ((db.filter (fun r => r.symbol == toUpperCase symbol &&
            r.interval == interval)).filter
              (inOpenTimeRange startTime endTime)).insertionSort klineAsc := by
          rw [List.mem_insertionSort, List.mem_filter, List.mem_filter]
          refine ⟨⟨hq, ?_⟩, hqr⟩
          rw [Bool.and_eq_true, beq_iff_eq, beq_iff_eq]
          exact ⟨hqs, hqi⟩
        have hqdrop : q ∈ (((db.filter (fun r => r.symbol == toUpperCase symbol &&
            r.interval == interval)).filter
              (inOpenTimeRange startTime endTime)).insertionSort
                klineAsc).drop limit := by
          rcases mem_take_or_drop limit hqmem with hh | hh
          · rw [← hres] at hh
            exact absurd hh hnot
          · exact hh
        rw [hres] at hr
        exact sorted_take_drop hsorted limit r hr q hqdrop
      · intro hlen q hq hqs hqi hqr
        rw [hres] at hlen
        rw [List.length_take] at hlen
        have hlt : (((db.filter (fun r => r.symbol == toUpperCase symbol &&
            r.interval == interval)).filter
              (inOpenTimeRange startTime endTime)).insertionSort
                klineAsc).length ≤ limit := by omega
        rw [hres, List.take_of_length_le hlt]
        rw [List.mem_insertionSort, List.mem_filter, List.mem_filter]
        refine ⟨⟨hq, ?_⟩, hqr⟩
        rw [Bool.and_eq_true, beq_iff_eq, beq_iff_eq]
        exact ⟨hqs, hqi⟩
    · intro hno
      rw [hno] at hrange
      simp at hrange
  · -- no-range mode
    have hrange2 : (truthy startTime || truthy endTime) = false := by
      simpa using hrange
    have hres : findKlines db symbol interval startTime endTime limit
        = (((db.filter (fun r => r.symbol == toUpperCase symbol &&
              r.interval == interval)).insertionSort
                klineDesc).take limit).reverse := by
      rw [findKlines, if_neg hrange]
    have hsorted : List.Pairwise klineDesc
        ((db.filter (fun r => r.symbol == toUpperCase symbol &&
            r.interval == interval)).insertionSort klineDesc) :=
      List.sorted_insertionSort klineDesc _
    have hmem : ∀ r ∈ findKlines db symbol interval startTime endTime limit,
        r ∈ db ∧ (r.symbol == toUpperCase symbol && r.interval == interval) = true := by
      intro r hr
      rw [hres, List.mem_reverse] at hr
      have hr2 := (List.take_sublist _ _).subset hr
      rw [List.mem_insertionSort] at hr2
      rw [List.mem_filter] at hr2
      exact hr2
    refine ⟨?_, ?_, ?_, ?_, ?_⟩
    · intro r hr
      obtain ⟨h1, h2⟩ := hmem r hr
      rw [Bool.and_eq_true, beq_iff_eq, beq_iff_eq] at h2
      exact ⟨h1, h2.1, h2.2⟩
    · rw [hres, List.length_reverse]
      exact (List.length_take _ _).le.trans (Nat.min_le_left _ _)
    · rw [hres]
      rw [List.pairwise_reverse]
      refine (hsorted.sublist (List.take_sublist _ _)).imp ?_
      intro a b h
      exact h
    · intro hyes
      rw [hyes] at hrange2
      simp at hrange2
    · intro _
      refine ⟨?_, ?_⟩
      · rw [hres, List.length_reverse, List.length_take,
          List.length_insertionSort]
      · intro q hq hqs hqi hqnot r hr
        have hqmem : q ∈ (db.filter (fun r => r.symbol == toUpperCase symbol &&
            r.interval == interval)).insertionSort klineDesc := by
          rw [List.mem_insertionSort, List.mem_filter]
          refine ⟨hq, ?_⟩
          rw [Bool.and_eq_true, beq_iff_eq, beq_iff_eq]
          exact ⟨hqs, hqi⟩
        have hqdrop : q ∈ ((db.filter (fun r => r.symbol == toUpperCase symbol &&
            r.interval == interval)).insertionSort klineDesc).drop limit := by
          rcases mem_take_or_drop limit hqmem with hh | hh
          · refine absurd ?_ hqnot
            rw [hres, List.mem_reverse]
            exact hh
          · exact hh
        rw [hres, List.mem_reverse] at hr
        exact sorted_take_drop hsorted limit r hr q hqdrop

theorem findKlines_spec_witness :
    (truthy (none : Option Nat) || truthy (none : Option Nat)) = false ∧
    sampleRow1 ∈ sampleDb ∧
    sampleRow1.symbol = toUpperCase "BTCUSDT" ∧
    sampleRow1.interval = "1m" ∧
    sampleRow1 ∉ findKlines sampleDb "BTCUSDT" "1m" none none 2 ∧
    ∀ r ∈ findKlines sampleDb "BTCUSDT" "1m" none none 2,
      sampleRow1.openTime ≤ r.openTime := by
  refine ⟨by decide, by decide, by decide, by decide, by decide, ?_⟩
  exact ((findKlines_spec sampleDb "BTCUSDT" "1m" none none 2).2.2.2.2
    (by decide)).2 sampleRow1 (by decide) (by decide) (by decide) (by decide)

/-- C8: for every inbound subscribe message (with the server
initialised): a string payload is JSON-parsed first to extract a symbol
field, and when that fails — JSON.parse throwing, or the symbol read
throwing a TypeError because the parse result is null — the inner catch
takes the whole string as the symbol; whenever the extraction yields a
non-empty string the client is joined to the room named by the uppercased
symbol and the reply is a success acknowledgement carrying that room
name; whenever the extracted symbol is missing, empty or not a string, or
the payload is invalid, the reply is a status-error message and the
client joins no room. -/
theorem handleSubscribe_spec (parse : String → Option Js) (payload : Js)
    (serverReady : Bool) (hready : serverReady = true) :
    (∀ s, payload = Js.str s → parse s = none →
      extractSymbol parse payload = Except.ok (Js.str s)) ∧
    (∀ s parsed v, payload = Js.str s → parse s = some parsed →
      jsGetSymbol parsed = Except.ok v →
      extractSymbol parse payload = Except.ok v) ∧
    (∀ s parsed m, payload = Js.str s → parse s = some parsed →
      jsGetSymbol parsed = Except.error m →
      extractSymbol parse payload = Except.ok (Js.str s)) ∧
    (∀ sym, extractSymbol parse payload = Except.ok (Js.str sym) → sym ≠ "" →
      handleSubscribe parse serverReady payload =
        { reply := SubscribeReply.success ("Subscribed to " ++ toUpperCase sym)
            (toUpperCase sym)
          joined := some (toUpperCase sym) }) ∧
    (∀ v, extractSymbol parse payload = Except.ok v →
      jsTruthy v = false ∨ jsIsString v = false →
      handleSubscribe parse serverReady payload =
        { reply := SubscribeReply.error "Symbol is required", joined := none }) ∧
    (∀ m, extractSymbol parse payload = Except.error m →
      handleSubscribe parse serverReady payload =
        { reply := SubscribeReply.error m, joined := none }) := by
  subst hready
  refine ⟨?_, ?_, ?_, ?_, ?_, ?_⟩
  · intro s hp hparse
    subst hp
    rw [extractSymbol, hparse]
  · intro s parsed v hp hparse hget
    subst hp
    simp only [extractSymbol, hparse, hget]
  · intro s parsed m hp hparse hget
    subst hp
    simp only [extractSymbol, hparse, hget]
  · intro sym hex hne
    rw [handleSubscribe]
    simp only [Bool.not_true, Bool.false_eq_true, if_false, hex]
    rw [finishSubscribe]
    have htr : jsTruthy (Js.str sym) = true := by
      simp [jsTruthy, hne]
    rw [htr]
    simp [jsIsString]
  · intro v hex hbad
    rw [handleSubscribe]
    simp only [Bool.not_true, Bool.false_eq_true, if_false, hex]
    cases v with
    | str s =>
      have hb : jsTruthy (Js.str s) = false := by
        rcases hbad with hb | hb
        · exact hb
        · exact absurd hb (by simp [jsIsString])
      rw [finishSubscribe, hb]
      simp
    | null => simp [finishSubscribe, jsTruthy, jsIsString]
    | jsUndefined => simp [finishSubscribe, jsTruthy, jsIsString]
    | bool b => simp [finishSubscribe, jsTruthy, jsIsString]
    | num n => simp [finishSubscribe, jsTruthy, jsIsString]
    | obj fields => simp [finishSubscribe, jsTruthy, jsIsString]
    | arr elems => simp [finishSubscribe, jsTruthy, jsIsString]
  · intro m hex
    rw [handleSubscribe]
    simp only [Bool.not_true, Bool.false_eq_true, if_false, hex]

theorem handleSubscribe_spec_witness :
    true = true ∧
    extractSymbol (fun _ => none) (Js.str "btcusdt")
      = Except.ok (Js.str "btcusdt") ∧
    "btcusdt" ≠ "" ∧
    handleSubscribe (fun _ => none) true (Js.str "btcusdt") =
      { reply := SubscribeReply.success "Subscribed to BTCUSDT" "BTCUSDT"
        joined := some "BTCUSDT" } := by
  refine ⟨rfl, rfl, by decide, ?_⟩
  have h := (handleSubscribe_spec (fun _ => none) (Js.str "btcusdt") true
    rfl).2.2.2.1 "btcusdt" rfl (by decide)
  rw [h]
  rfl

/-!  Throttle machine: helper lemmas.  -/

theorem prevPIdxLt_mono {p : PrevP} {a b : Nat} (h : prevPIdxLt p a)
    (hab : a ≤ b) : prevPIdxLt p b := by
  cases p with
  | none => trivial
  | some q => exact Nat.lt_of_lt_of_le h hab

theorem IdxLt_mono {l : List Emit} {a b : Nat} (h : IdxLt l a) (hab : a ≤ b) :
    IdxLt l b := fun e he => Nat.lt_of_lt_of_le (h e he) hab

theorem IdxLt_append {l1 l2 : List Emit} {a : Nat} (h1 : IdxLt l1 a)
    (h2 : IdxLt l2 a) : IdxLt (l1 ++ l2) a := by
  intro e he
  rcases List.mem_append.mp he with hh | hh
  · exact h1 e hh
  · exact h2 e hh

theorem IdxLt_nil {a : Nat} : IdxLt [] a := by
  intro e he
  cases he

theorem prevAfter_append (l1 l2 : List Emit) :
    ∀ p : PrevP, prevAfter p (l1 ++ l2) = prevAfter (prevAfter p l1) l2 := by
  induction l1 with
  | nil => intro p; rfl
  | cons e rest ih =>
    intro p
    simp only [List.cons_append, prevAfter]
    exact ih (some (e.time, e.idx))

theorem priceChainFrom_append (l1 l2 : List Emit) :
    ∀ p : PrevP, PriceChainFrom p l1 → PriceChainFrom (prevAfter p l1) l2 →
      PriceChainFrom p (l1 ++ l2) := by
  induction l1 with
  | nil => intro p _ h2; exact h2
  | cons e rest ih =>
    intro p h1 h2
    obtain ⟨hc, ht, hi, hrest⟩ := h1
    exact ⟨hc, ht, hi, ih (some (e.time, e.idx)) hrest h2⟩

theorem priceChainFrom_chain (l : List Emit) :
    ∀ p : PrevP, PriceChainFrom p l →
      List.Chain' (fun a b => a.time + PRICE_THROTTLE_MS ≤ b.time) l ∧
      List.Chain' (fun a b => a.idx < b.idx) l ∧
      ∀ e ∈ l, e.chan = Chan.price := by
  induction l with
  | nil => intro p _; exact ⟨List.chain'_nil, List.chain'_nil, by intro e he; cases he⟩
  | cons e rest ih =>
    intro p h
    obtain ⟨hc, _, _, hrest⟩ := h
    obtain ⟨ih1, ih2, ih3⟩ := ih (some (e.time, e.idx)) hrest
    refine ⟨?_, ?_, ?_⟩
    · cases rest with
      | nil => exact List.chain'_singleton e
      | cons f r2 =>
        rw [List.chain'_cons]
        exact ⟨hrest.2.1, ih1⟩
    · cases rest with
      | nil => exact List.chain'_singleton e
      | cons f r2 =>
        rw [List.chain'_cons]
        exact ⟨hrest.2.2.1, ih2⟩
    · intro x hx
      rcases List.mem_cons.mp hx with hh | hh
      · rw [hh]; exact hc
      · exact ih3 x hh

theorem priceEmits_of_chain {l : List Emit} {p : PrevP}
    (h : PriceChainFrom p l) : priceEmits l = l := by
  rw [priceEmits, List.filter_eq_self]
  intro e he
  rw [(priceChainFrom_chain l p h).2.2 e he]
  rfl

theorem kAfter_append (l1 l2 : List Emit) :
    ∀ k : Nat, kAfter k (l1 ++ l2) = kAfter (kAfter k l1) l2 := by
  induction l1 with
  | nil => intro k; rfl
  | cons e rest ih =>
    intro k
    simp only [List.cons_append, kAfter]
    exact ih e.time

theorem klineChainFrom_append (l1 l2 : List Emit) :
    ∀ k : Nat, KlineChainFrom k l1 → KlineChainFrom (kAfter k l1) l2 →
      KlineChainFrom k (l1 ++ l2) := by
  induction l1 with
  | nil => intro k _ h2; exact h2
  | cons e rest ih =>
    intro k h1 h2
    obtain ⟨hc, ht, hrest⟩ := h1
    exact ⟨hc, ht, ih e.time hrest h2⟩

theorem klineChainFrom_chain (l : List Emit) :
    ∀ k : Nat, KlineChainFrom k l →
      List.Chain' (fun a b => a.time + KLINE_THROTTLE_MS ≤ b.time) l := by
  induction l with
  | nil => intro k _; exact List.chain'_nil
  | cons e rest ih =>
    intro k h
    obtain ⟨_, _, hrest⟩ := h
    cases rest with
    | nil => exact List.chain'_singleton e
    | cons f r2 =>
      rw [List.chain'_cons]
      exact ⟨hrest.2.1, ih e.time hrest⟩

theorem timesFrom_of_head :
    ∀ (a : Nat × StreamEvent) (tr : List (Nat × StreamEvent)),
      List.Chain' (fun x y => x.1 ≤ y.1) (a :: tr) → timesFrom a.1 tr
  | _, [], _ => trivial
  | a, b :: rest, h => by
    rw [List.chain'_cons] at h
    exact ⟨h.1, timesFrom_of_head b rest h.2⟩

theorem timesFrom_zero_of_mono :
    ∀ tr : List (Nat × StreamEvent), timesMono tr → timesFrom 0 tr
  | [], _ => trivial
  | (t, e) :: rest, h => ⟨Nat.zero_le t, timesFrom_of_head (t, e) rest h⟩

theorem lastTimeFrom_le {B : Nat} :
    ∀ (tr : List (Nat × StreamEvent)) (T : Nat), T ≤ B →
      (∀ x ∈ tr, x.1 ≤ B) → lastTimeFrom T tr ≤ B
  | [], _, hT, _ => hT
  | (t, e) :: rest, _, _, hall => by
    refine lastTimeFrom_le rest t (hall (t, e) (List.mem_cons_self _ _)) ?_
    intro x hx
    exact hall x (List.mem_cons_of_mem _ hx)

theorem lastTimeFrom_mem :
    ∀ (tr : List (Nat × StreamEvent)) (T : Nat), tr ≠ [] →
      ∃ x ∈ tr, lastTimeFrom T tr = x.1
  | [], _, hne => absurd rfl hne
  | (t, e) :: rest, T, _ => by
    cases rest with
    | nil => exact ⟨(t, e), List.mem_cons_self _ _, rfl⟩
    | cons b r2 =>
      obtain ⟨x, hx1, hx2⟩ :=
        lastTimeFrom_mem (b :: r2) t (List.cons_ne_nil b r2)
      exact ⟨x, List.mem_cons_of_mem _ hx1, hx2⟩

theorem prevAfter_mem (l : List Emit) :
    ∀ (p : PrevP) (q : Nat × Nat), prevAfter p l = some q →
      p = some q ∨ ∃ e ∈ l, e.time = q.1 ∧ e.idx = q.2 := by
  induction l with
  | nil => intro p q h; exact Or.inl h
  | cons e rest ih =>
    intro p q h
    rcases ih (some (e.time, e.idx)) q h with hh | hh
    · rw [Option.some.injEq] at hh
      refine Or.inr ⟨e, List.mem_cons_self _ _, ?_, ?_⟩
      · rw [← hh]
      · rw [← hh]
    · obtain ⟨f, hf1, hf2⟩ := hh
      exact Or.inr ⟨f, List.mem_cons_of_mem _ hf1, hf2⟩

theorem priceInv_init : PriceInv initThrottle none 0 0 := by
  refine ⟨rfl, rfl, Nat.le_refl 0, rfl, trivial, ?_, ?_⟩
  · intro _ h0
    exact absurd rfl h0
  · intro f hf
    cases hf

theorem klineInv_init : KlineInv initThrottle 0 0 := by
  refine ⟨rfl, Nat.le_refl 0, ?_⟩
  intro f hf
  cases hf

/-- Firing due timers preserves the price-only invariant and emits a
correctly spaced price broadcast at most. -/
theorem fireDue_price (t : Nat) (s : ThrottleState) (prev : PrevP) (T n : Nat)
    (hInv : PriceInv s prev T n) (hT : T ≤ t) :
    PriceChainFrom prev (fireDue t s).2 ∧
    IdxLt (fireDue t s).2 n ∧
    PriceInv (fireDue t s).1 (prevAfter prev (fireDue t s).2) t n := by
  obtain ⟨hkt, hlp, hlpT, hpend, hprevIdx, hdone, htimer⟩ := hInv
  cases hpt : s.priceTimer with
  | none =>
    have hfd : fireDue t s = (s, []) := by
      simp only [fireDue, hpt, hkt]
    rw [hfd]
    refine ⟨trivial, IdxLt_nil, hkt, hlp, Nat.le_trans hlpT hT, hpend,
      hprevIdx, hdone, ?_⟩
    intro f' hf'
    rw [hpt] at hf'
    cases hf'
  | some f =>
    obtain ⟨hfeq, hTf, hn0, hpidx⟩ := htimer f hpt
    have hpend2 : s.pendingPrice = some (n - 1) := by
      rw [hpend, if_neg hn0]
    by_cases hft : f ≤ t
    · have hfd : fireDue t s
          = ({ s with priceTimer := none, lastPriceBroadcast := f },
             [⟨f, Chan.price, n - 1⟩]) := by
        simp only [fireDue, hpt, hkt, if_pos hft, firePriceTimer, hpend2]
      rw [hfd]
      refine ⟨⟨rfl, Nat.le_of_eq hfeq.symm, hpidx, trivial⟩, ?_, ?_⟩
      · intro e he
        rcases List.mem_cons.mp he with hh | hh
        · rw [hh]
          show n - 1 < n
          omega
        · cases hh
      · refine ⟨hkt, rfl, hft, ?_, ?_, ?_, ?_⟩
        · rw [if_neg hn0]
          exact hpend2
        · show n - 1 < n
          omega
        · intro _ _
          exact ⟨f, rfl⟩
        · intro f' hf'
          cases hf'
    · have hfd : fireDue t s = (s, []) := by
        simp only [fireDue, hpt, hkt, if_neg hft]
      rw [hfd]
      refine ⟨trivial, IdxLt_nil, hkt, hlp, Nat.le_trans hlpT hT, hpend,
        hprevIdx, hdone, ?_⟩
      intro f' hf'
      rw [hpt] at hf'
      rw [Option.some.injEq] at hf'
      subst hf'
      exact ⟨hfeq, Nat.lt_of_not_le hft, hn0, hpidx⟩

/-- Handling one price event at the current wall-clock preserves the
price-only invariant: either an immediate broadcast respecting the
throttle, or a pending update with the timer armed at last+200. -/
theorem publishPrice_price (t n : Nat) (s : ThrottleState) (prev : PrevP)
    (hInv : PriceInv s prev t n) :
    PriceChainFrom prev (publishPrice t n StreamEvent.price s).2 ∧
    IdxLt (publishPrice t n StreamEvent.price s).2 (n + 1) ∧
    PriceInv (publishPrice t n StreamEvent.price s).1
      (prevAfter prev (publishPrice t n StreamEvent.price s).2) t (n + 1) := by
  obtain ⟨hkt, hlp, hlpT, hpend, hprevIdx, hdone, htimer⟩ := hInv
  by_cases hg : s.lastPriceBroadcast + PRICE_THROTTLE_MS ≤ t
  · have hnone : s.priceTimer = none := by
      cases hpt : s.priceTimer with
      | none => rfl
      | some f =>
        obtain ⟨hfeq, hTf, _, _⟩ := htimer f hpt
        rw [hlp] at hg
        omega
    have hstep : publishPrice t n StreamEvent.price s
        = ({ s with pendingPrice := some n, lastPriceBroadcast := t },
           [⟨t, Chan.price, n⟩]) := by
      simp only [publishPrice, if_pos hg]
    rw [hstep]
    refine ⟨⟨rfl, by rw [← hlp]; exact hg, hprevIdx, trivial⟩, ?_, ?_⟩
    · intro e he
      rcases List.mem_cons.mp he with hh | hh
      · rw [hh]
        show n < n + 1
        omega
      · cases hh
    · refine ⟨hkt, rfl, Nat.le_refl t, by simp, ?_, ?_, ?_⟩
      · show n < n + 1
        omega
      · intro _ _
        exact ⟨t, rfl⟩
      · intro f' hf'
        have hf2 : s.priceTimer = some f' := hf'
        rw [hnone] at hf2
        cases hf2
  · cases hpt : s.priceTimer with
    | none =>
      have hstep : publishPrice t n StreamEvent.price s
          = ({ s with
                pendingPrice := some n
                priceTimer := some (s.lastPriceBroadcast + PRICE_THROTTLE_MS) },
             []) := by
        simp only [publishPrice, if_neg hg, hpt]
      rw [hstep]
      refine ⟨trivial, IdxLt_nil, hkt, hlp, hlpT, by simp, ?_, ?_, ?_⟩
      · exact prevPIdxLt_mono hprevIdx (by omega)
      · intro h _
        have h2 : (some (s.lastPriceBroadcast + PRICE_THROTTLE_MS) : Option Nat)
            = none := h
        cases h2
      · intro f' hf'
        have hf2 : (some (s.lastPriceBroadcast + PRICE_THROTTLE_MS) : Option Nat)
            = some f' := hf'
        rw [Option.some.injEq] at hf2
        subst hf2
        refine ⟨congrArg (fun x => x + PRICE_THROTTLE_MS) hlp, by omega,
          by omega, ?_⟩
        show prevPIdxLt prev (n + 1 - 1)
        rw [Nat.add_sub_cancel]
        exact hprevIdx
    | some f =>
      obtain ⟨hfeq, hTf, hn0, hpidx⟩ := htimer f hpt
      have hstep : publishPrice t n StreamEvent.price s
          = ({ s with pendingPrice := some n }, []) := by
        simp only [publishPrice, if_neg hg, hpt]
      rw [hstep]
      refine ⟨trivial, IdxLt_nil, hkt, hlp, hlpT, by simp, ?_, ?_, ?_⟩
      · exact prevPIdxLt_mono hprevIdx (by omega)
      · intro h _
        have h2 : s.priceTimer = none := h
        rw [hpt] at h2
        cases h2
      · intro f' hf'
        have hf2 : s.priceTimer = some f' := hf'
        rw [hpt] at hf2
        rw [Option.some.injEq] at hf2
        subst hf2
        refine ⟨hfeq, hTf, by omega, ?_⟩
        show prevPIdxLt prev (n + 1 - 1)
        rw [Nat.add_sub_cancel]
        exact hprevIdx

/-- One full event-loop step on a price event. -/
theorem throttleStep_price (s : ThrottleState) (prev : PrevP) (T n t : Nat)
    (hInv : PriceInv s prev T n) (hT : T ≤ t) :
    PriceChainFrom prev (throttleStep s n t StreamEvent.price).2 ∧
    IdxLt (throttleStep s n t StreamEvent.price).2 (n + 1) ∧
    PriceInv (throttleStep s n t StreamEvent.price).1
      (prevAfter prev (throttleStep s n t StreamEvent.price).2) t (n + 1) := by
  obtain ⟨h1, h2, h3⟩ := fireDue_price t s prev T n hInv hT
  obtain ⟨h4, h5, h6⟩ :=
    publishPrice_price t n (fireDue t s).1 (prevAfter prev (fireDue t s).2) h3
  have hsplit : throttleStep s n t StreamEvent.price
      = ((publishPrice t n StreamEvent.price (fireDue t s).1).1,
         (fireDue t s).2
           ++ (publishPrice t n StreamEvent.price (fireDue t s).1).2) := rfl
  rw [hsplit]
  refine ⟨priceChainFrom_append _ _ prev h1 h4,
    IdxLt_append (IdxLt_mono h2 (by omega)) h5, ?_⟩
  rw [prevAfter_append]
  exact h6

theorem klineEmits_append (l1 l2 : List Emit) :
    klineEmits (l1 ++ l2) = klineEmits l1 ++ klineEmits l2 := by
  rw [klineEmits, klineEmits, klineEmits, List.filter_append]

theorem priceEmits_append (l1 l2 : List Emit) :
    priceEmits (l1 ++ l2) = priceEmits l1 ++ priceEmits l2 := by
  rw [priceEmits, priceEmits, priceEmits, List.filter_append]

/-- The price-timer callback does not touch the kline channel. -/
theorem firePriceTimer_klineFields (f : Nat) (s : ThrottleState) :
    (firePriceTimer f s).1.lastKlineBroadcast = s.lastKlineBroadcast ∧
    (firePriceTimer f s).1.klineTimer = s.klineTimer ∧
    (firePriceTimer f s).1.pendingKline = s.pendingKline ∧
    klineEmits (firePriceTimer f s).2 = [] := by
  cases hp : s.pendingPrice with
  | none => simp [firePriceTimer, hp, klineEmits]
  | some i => simp [firePriceTimer, hp, klineEmits]

/-- The kline-timer callback with a pending kline: one klineUpdate at the
fire time, timer slot cleared, pending kline kept. -/
theorem fireKlineTimer_spec (f : Nat) (s : ThrottleState) (i : Nat)
    (hpend : s.pendingKline = some i) :
    (fireKlineTimer f s).1.lastKlineBroadcast = f ∧
    (fireKlineTimer f s).1.klineTimer = none ∧
    (fireKlineTimer f s).1.pendingKline = some i ∧
    klineEmits (fireKlineTimer f s).2 = [⟨f, Chan.kline, i⟩] := by
  cases hpp : s.pendingPrice with
  | none => simp [fireKlineTimer, hpend, hpp, klineEmits]
  | some j => simp [fireKlineTimer, hpend, hpp, klineEmits]

/-- Firing due timers preserves the kline-channel invariant along any
trace and spaces klineUpdates by the kline throttle. -/
theorem fireDue_kline (t : Nat) (s : ThrottleState) (kE T : Nat)
    (hInv : KlineInv s kE T) (hT : T ≤ t) :
    KlineChainFrom kE (klineEmits (fireDue t s).2) ∧
    KlineInv (fireDue t s).1 (kAfter kE (klineEmits (fireDue t s).2)) t := by
  obtain ⟨hlk, hlkT, htimer⟩ := hInv
  cases hkt : s.klineTimer with
  | none =>
    cases hpt : s.priceTimer with
    | none =>
      have hfd : fireDue t s = (s, []) := by
        simp only [fireDue, hpt, hkt]
      rw [hfd]
      refine ⟨trivial, hlk, Nat.le_trans hlkT hT, ?_⟩
      intro f hf
      rw [hkt] at hf
      cases hf
    | some fp =>
      by_cases hpdue : fp ≤ t
      · have hfd : fireDue t s = firePriceTimer fp s := by
          simp only [fireDue, hpt, hkt, if_pos hpdue]
        obtain ⟨ha, hb, hc, hd⟩ := firePriceTimer_klineFields fp s
        rw [hfd, hd]
        refine ⟨trivial, ?_, Nat.le_trans hlkT hT, ?_⟩
        · rw [ha]
          exact hlk
        · intro f hf
          rw [hb, hkt] at hf
          cases hf
      · have hfd : fireDue t s = (s, []) := by
          simp only [fireDue, hpt, hkt, if_neg hpdue]
        rw [hfd]
        refine ⟨trivial, hlk, Nat.le_trans hlkT hT, ?_⟩
        intro f hf
        rw [hkt] at hf
        cases hf
  | some fk =>
    obtain ⟨hfeq, hTf, hpk⟩ := htimer fk hkt
    obtain ⟨i, hpend⟩ := Option.isSome_iff_exists.mp hpk
    by_cases hkdue : fk ≤ t
    · cases hpt : s.priceTimer with
      | none =>
        have hfd : fireDue t s = fireKlineTimer fk s := by
          simp only [fireDue, hpt, hkt, if_pos hkdue]
        obtain ⟨ha, hb, hc, hd⟩ := fireKlineTimer_spec fk s i hpend
        rw [hfd, hd]
        refine ⟨⟨rfl, Nat.le_of_eq hfeq.symm, trivial⟩, ?_, hkdue, ?_⟩
        · exact ha
        · intro f hf
          rw [hb] at hf
          cases hf
      | some fp =>
        by_cases hpdue : fp ≤ t
        · by_cases hord : fp ≤ fk
          · have hfd : fireDue t s
                = ((fireKlineTimer fk (firePriceTimer fp s).1).1,
                   (firePriceTimer fp s).2
                     ++ (fireKlineTimer fk (firePriceTimer fp s).1).2) := by
              simp only [fireDue, hpt, hkt, if_pos hkdue, if_pos hpdue,
                if_pos hord]
            obtain ⟨ha1, hb1, hc1, hd1⟩ := firePriceTimer_klineFields fp s
            obtain ⟨ha2, hb2, hc2, hd2⟩ :=
              fireKlineTimer_spec fk (firePriceTimer fp s).1 i
                (by rw [hc1]; exact hpend)
            rw [hfd]
            show KlineChainFrom kE (klineEmits ((firePriceTimer fp s).2
                ++ (fireKlineTimer fk (firePriceTimer fp s).1).2)) ∧ _
            rw [klineEmits_append, hd1, hd2, List.nil_append]
            refine ⟨⟨rfl, Nat.le_of_eq hfeq.symm, trivial⟩, ?_, hkdue, ?_⟩
            · exact ha2
            · intro f hf
              rw [hb2] at hf
              cases hf
          · have hfd : fireDue t s
                = ((firePriceTimer fp (fireKlineTimer fk s).1).1,
                   (fireKlineTimer fk s).2
                     ++ (firePriceTimer fp (fireKlineTimer fk s).1).2) := by
              simp only [fireDue, hpt, hkt, if_pos hkdue, if_pos hpdue,
                if_neg hord]
            obtain ⟨ha1, hb1, hc1, hd1⟩ := fireKlineTimer_spec fk s i hpend
            obtain ⟨ha2, hb2, hc2, hd2⟩ :=
              firePriceTimer_klineFields fp (fireKlineTimer fk s).1
            rw [hfd]
            show KlineChainFrom kE (klineEmits ((fireKlineTimer fk s).2
                ++ (firePriceTimer fp (fireKlineTimer fk s).1).2)) ∧ _
            rw [klineEmits_append, hd1, hd2, List.append_nil]
            refine ⟨⟨rfl, Nat.le_of_eq hfeq.symm, trivial⟩, ?_, hkdue, ?_⟩
            · rw [ha2]
              exact ha1
            · intro f hf
              rw [hb2, hb1] at hf
              cases hf
        · have hfd : fireDue t s = fireKlineTimer fk s := by
            simp only [fireDue, hpt, hkt, if_pos hkdue, if_neg hpdue]
          obtain ⟨ha, hb, hc, hd⟩ := fireKlineTimer_spec fk s i hpend
          rw [hfd, hd]
          refine ⟨⟨rfl, Nat.le_of_eq hfeq.symm, trivial⟩, ?_, hkdue, ?_⟩
          · exact ha
          · intro f hf
            rw [hb] at hf
            cases hf
    · cases hpt : s.priceTimer with
      | none =>
        have hfd : fireDue t s = (s, []) := by
          simp only [fireDue, hpt, hkt, if_neg hkdue]
        rw [hfd]
        refine ⟨trivial, hlk, Nat.le_trans hlkT hT, ?_⟩
        intro f hf
        rw [hkt] at hf
        rw [Option.some.injEq] at hf
        subst hf
        exact ⟨hfeq, Nat.lt_of_not_le hkdue, hpk⟩
      | some fp =>
        by_cases hpdue : fp ≤ t
        · have hfd : fireDue t s = firePriceTimer fp s := by
            simp only [fireDue, hpt, hkt, if_pos hpdue, if_neg hkdue]
          obtain ⟨ha, hb, hc, hd⟩ := firePriceTimer_klineFields fp s
          rw [hfd, hd]
          refine ⟨trivial, ?_, Nat.le_trans hlkT hT, ?_⟩
          · rw [ha]
            exact hlk
          · intro f hf
            rw [hb, hkt] at hf
            rw [Option.some.injEq] at hf
            subst hf
            refine ⟨hfeq, Nat.lt_of_not_le hkdue, ?_⟩
            rw [hc]
            exact hpk
        · have hfd : fireDue t s = (s, []) := by
            simp only [fireDue, hpt, hkt, if_neg hpdue, if_neg hkdue]
          rw [hfd]
          refine ⟨trivial, hlk, Nat.le_trans hlkT hT, ?_⟩
          intro f hf
          rw [hkt] at hf
          rw [Option.some.injEq] at hf
          subst hf
          exact ⟨hfeq, Nat.lt_of_not_le hkdue, hpk⟩

/-- Handling one event at the current wall-clock preserves the
kline-channel invariant. -/
theorem publishPrice_kline (t n : Nat) (e : StreamEvent) (s : ThrottleState)
    (kE : Nat) (hInv : KlineInv s kE t) :
    KlineChainFrom kE (klineEmits (publishPrice t n e s).2) ∧
    KlineInv (publishPrice t n e s).1
      (kAfter kE (klineEmits (publishPrice t n e s).2)) t := by
  obtain ⟨hlk, hlkT, htimer⟩ := hInv
  cases e with
  | price =>
    by_cases hg : s.lastPriceBroadcast + PRICE_THROTTLE_MS ≤ t
    · have hstep : publishPrice t n StreamEvent.price s
          = ({ s with pendingPrice := some n, lastPriceBroadcast := t },
             [⟨t, Chan.price, n⟩]) := by
        simp only [publishPrice, if_pos hg]
      rw [hstep]
      have hke : klineEmits [(⟨t, Chan.price, n⟩ : Emit)] = [] := by
        simp [klineEmits]
      rw [hke]
      exact ⟨trivial, hlk, hlkT, htimer⟩
    · cases hpt : s.priceTimer with
      | none =>
        have hstep : publishPrice t n StreamEvent.price s
            = ({ s with
                  pendingPrice := some n
                  priceTimer := some (s.lastPriceBroadcast + PRICE_THROTTLE_MS) },
               []) := by
          simp only [publishPrice, if_neg hg, hpt]
        rw [hstep]
        exact ⟨trivial, hlk, hlkT, htimer⟩
      | some f =>
        have hstep : publishPrice t n StreamEvent.price s
            = ({ s with pendingPrice := some n }, []) := by
          simp only [publishPrice, if_neg hg, hpt]
        rw [hstep]
        exact ⟨trivial, hlk, hlkT, htimer⟩
  | kline =>
    by_cases hg : s.lastKlineBroadcast + KLINE_THROTTLE_MS ≤ t
    · have hnone : s.klineTimer = none := by
        cases hkt : s.klineTimer with
        | none => rfl
        | some fk =>
          obtain ⟨hfeq, hTf, _⟩ := htimer fk hkt
          rw [hlk] at hg
          omega
      have hstep : publishPrice t n StreamEvent.kline s
          = ({ s with
                pendingKline := some n
                pendingPrice := some n
                lastKlineBroadcast := t
                lastPriceBroadcast := t },
             [⟨t, Chan.kline, n⟩, ⟨t, Chan.price, n⟩]) := by
        simp only [publishPrice, if_pos hg]
      rw [hstep]
      have hke : klineEmits [(⟨t, Chan.kline, n⟩ : Emit),
          (⟨t, Chan.price, n⟩ : Emit)] = [⟨t, Chan.kline, n⟩] := by
        simp [klineEmits]
      rw [hke]
      refine ⟨⟨rfl, by rw [← hlk]; exact hg, trivial⟩, rfl, Nat.le_refl t, ?_⟩
      intro f hf
      have hf2 : s.klineTimer = some f := hf
      rw [hnone] at hf2
      cases hf2
    · cases hkt : s.klineTimer with
      | none =>
        have hstep : publishPrice t n StreamEvent.kline s
            = ({ s with
                  pendingKline := some n
                  pendingPrice := some n
                  klineTimer := some (s.lastKlineBroadcast + KLINE_THROTTLE_MS) },
               []) := by
          simp only [publishPrice, if_neg hg, hkt]
        rw [hstep]
        refine ⟨trivial, hlk, hlkT, ?_⟩
        intro f hf
        have hf2 : (some (s.lastKlineBroadcast + KLINE_THROTTLE_MS) : Option Nat)
            = some f := hf
        rw [Option.some.injEq] at hf2
        subst hf2
        refine ⟨congrArg (fun x => x + KLINE_THROTTLE_MS) hlk, by omega, rfl⟩
      | some fk =>
        obtain ⟨hfeq, hTf, _⟩ := htimer fk hkt
        have hstep : publishPrice t n StreamEvent.kline s
            = ({ s with pendingKline := some n, pendingPrice := some n }, []) := by
          simp only [publishPrice, if_neg hg, hkt]
        rw [hstep]
        refine ⟨trivial, hlk, hlkT, ?_⟩
        intro f hf
        have hf2 : s.klineTimer = some f := hf
        rw [hkt] at hf2
        rw [Option.some.injEq] at hf2
        subst hf2
        exact ⟨hfeq, hTf, rfl⟩

/-- One full event-loop step preserves the kline-channel invariant. -/
theorem throttleStep_kline (s : ThrottleState) (kE T n t : Nat) (e : StreamEvent)
    (hInv : KlineInv s kE T) (hT : T ≤ t) :
    KlineChainFrom kE (klineEmits (throttleStep s n t e).2) ∧
    KlineInv (throttleStep s n t e).1
      (kAfter kE (klineEmits (throttleStep s n t e).2)) t := by
  obtain ⟨h1, h2⟩ := fireDue_kline t s kE T hInv hT
  obtain ⟨h3, h4⟩ :=
    publishPrice_kline t n e (fireDue t s).1
      (kAfter kE (klineEmits (fireDue t s).2)) h2
  have hsplit : throttleStep s n t e
      = ((publishPrice t n e (fireDue t s).1).1,
         (fireDue t s).2 ++ (publishPrice t n e (fireDue t s).1).2) := rfl
  rw [hsplit]
  show KlineChainFrom kE (klineEmits ((fireDue t s).2
      ++ (publishPrice t n e (fireDue t s).1).2)) ∧ _
  rw [klineEmits_append]
  refine ⟨klineChainFrom_append _ _ kE h1 h3, ?_⟩
  rw [kAfter_append]
  exact h4

/-- Running a price-only trace from an invariant state keeps the
invariant and produces a correctly spaced, strictly increasing emission
sequence. -/
theorem runThrottleAux_price :
    ∀ (tr : List (Nat × StreamEvent)) (s : ThrottleState) (prev : PrevP)
      (T n : Nat),
      PriceInv s prev T n → timesFrom T tr →
      (∀ x ∈ tr, x.2 = StreamEvent.price) →
      PriceChainFrom prev (runThrottleAux s n tr).2 ∧
      IdxLt (runThrottleAux s n tr).2 (n + tr.length) ∧
      PriceInv (runThrottleAux s n tr).1
        (prevAfter prev (runThrottleAux s n tr).2) (lastTimeFrom T tr)
        (n + tr.length)
  | [], s, prev, T, n, hInv, _, _ => ⟨trivial, IdxLt_nil, hInv⟩
  | (t, e) :: rest, s, prev, T, n, hInv, htimes, hpo => by
    obtain ⟨hT, htimes2⟩ := htimes
    have he : e = StreamEvent.price := hpo (t, e) (List.mem_cons_self _ _)
    subst he
    obtain ⟨h1, h2, h3⟩ := throttleStep_price s prev T n t hInv hT
    obtain ⟨h4, h5, h6⟩ := runThrottleAux_price rest
      (throttleStep s n t StreamEvent.price).1
      (prevAfter prev (throttleStep s n t StreamEvent.price).2) t (n + 1) h3
      htimes2 (fun x hx => hpo x (List.mem_cons_of_mem _ hx))
    have hsplit : runThrottleAux s n ((t, StreamEvent.price) :: rest)
        = ((runThrottleAux (throttleStep s n t StreamEvent.price).1 (n + 1)
              rest).1,
           (throttleStep s n t StreamEvent.price).2
             ++ (runThrottleAux (throttleStep s n t StreamEvent.price).1 (n + 1)
                   rest).2) := rfl
    rw [hsplit]
    refine ⟨priceChainFrom_append _ _ prev h1 h4, ?_, ?_⟩
    · rw [List.length_cons]
      exact IdxLt_append (IdxLt_mono h2 (by omega)) (IdxLt_mono h5 (by omega))
    · rw [prevAfter_append, List.length_cons]
      have harith : n + (rest.length + 1) = n + 1 + rest.length := by omega
      rw [harith]
      exact h6

/-- Running any trace keeps the kline-channel invariant and spaces
klineUpdates by the kline throttle. -/
theorem runThrottleAux_kline :
    ∀ (tr : List (Nat × StreamEvent)) (s : ThrottleState) (kE T n : Nat),
      KlineInv s kE T → timesFrom T tr →
      KlineChainFrom kE (klineEmits (runThrottleAux s n tr).2) ∧
      KlineInv (runThrottleAux s n tr).1
        (kAfter kE (klineEmits (runThrottleAux s n tr).2)) (lastTimeFrom T tr)
  | [], s, kE, T, n, hInv, _ => ⟨trivial, hInv⟩
  | (t, e) :: rest, s, kE, T, n, hInv, htimes => by
    obtain ⟨hT, htimes2⟩ := htimes
    obtain ⟨h1, h2⟩ := throttleStep_kline s kE T n t e hInv hT
    obtain ⟨h3, h4⟩ := runThrottleAux_kline rest (throttleStep s n t e).1
      (kAfter kE (klineEmits (throttleStep s n t e).2)) t (n + 1) h2 htimes2
    have hsplit : runThrottleAux s n ((t, e) :: rest)
        = ((runThrottleAux (throttleStep s n t e).1 (n + 1) rest).1,
           (throttleStep s n t e).2
             ++ (runThrottleAux (throttleStep s n t e).1 (n + 1) rest).2) := rfl
    rw [hsplit]
    show KlineChainFrom kE (klineEmits ((throttleStep s n t e).2
        ++ (runThrottleAux (throttleStep s n t e).1 (n + 1) rest).2)) ∧ _
    rw [klineEmits_append]
    refine ⟨klineChainFrom_append _ _ kE h1 h3, ?_⟩
    rw [kAfter_append]
    exact h4

/-- C3 counterexample: a price event at t=1000 is broadcast immediately;
a kline event at t=1100 (its own 500 ms window open) broadcasts a kline
AND a price update without consulting the price throttle, so two price
emissions for the symbol are only 100 ms < 200 ms apart. -/
theorem C3_counterexample :
    priceEmits (runThrottle
        [(1000, StreamEvent.price), (1100, StreamEvent.kline)]).2
      = [⟨1000, Chan.price, 0⟩, ⟨1100, Chan.price, 1⟩] ∧
    ¬ List.Chain' (fun a b => a.time + PRICE_THROTTLE_MS ≤ b.time)
      (priceEmits (runThrottle
        [(1000, StreamEvent.price), (1100, StreamEvent.kline)]).2) := by
  have he : priceEmits (runThrottle
      [(1000, StreamEvent.price), (1100, StreamEvent.kline)]).2
      = [⟨1000, Chan.price, 0⟩, ⟨1100, Chan.price, 1⟩] := by decide
  refine ⟨he, ?_⟩
  intro h
  rw [he, List.chain'_cons] at h
  exact absurd h.1 (by decide)

/-- C3 (amended): the throttle-rate guarantee holds per channel path:
consecutive klineUpdate broadcasts for a (symbol, interval) key are
always ≥ 500 ms apart, and consecutive priceUpdate broadcasts for a
symbol are ≥ 200 ms apart provided no kline events arrive for that
symbol — a kline event also emits a price update without consulting the
price throttle (and without clearing an armed price timer), so in mixed
traces price emissions can be closer than 200 ms. -/
theorem throttle_min_interval (tr : List (Nat × StreamEvent)) (tEnd : Nat)
    (hmono : timesMono tr) (hend : ∀ x ∈ tr, x.1 ≤ tEnd) :
    (priceOnly tr →
      List.Chain' (fun a b => a.time + PRICE_THROTTLE_MS ≤ b.time)
        (priceEmits (runThrottleFlush tr tEnd))) ∧
    List.Chain' (fun a b => a.time + KLINE_THROTTLE_MS ≤ b.time)
      (klineEmits (runThrottleFlush tr tEnd)) := by
  have htf := timesFrom_zero_of_mono tr hmono
  have hlast : lastTimeFrom 0 tr ≤ tEnd :=
    lastTimeFrom_le tr 0 (Nat.zero_le _) hend
  constructor
  · intro hpo
    obtain ⟨h1, h2, h3⟩ :=
      runThrottleAux_price tr initThrottle none 0 0 priceInv_init htf hpo
    obtain ⟨h4, h5, h6⟩ := fireDue_price tEnd (runThrottleAux initThrottle 0 tr).1
      (prevAfter none (runThrottleAux initThrottle 0 tr).2) (lastTimeFrom 0 tr)
      (0 + tr.length) h3 hlast
    have hchain : PriceChainFrom none (runThrottleFlush tr tEnd) := by
      show PriceChainFrom none ((runThrottleAux initThrottle 0 tr).2
        ++ (fireDue tEnd (runThrottleAux initThrottle 0 tr).1).2)
      exact priceChainFrom_append _ _ none h1 h4
    rw [priceEmits_of_chain hchain]
    exact (priceChainFrom_chain _ none hchain).1
  · obtain ⟨h1, h2⟩ :=
      runThrottleAux_kline tr initThrottle 0 0 0 klineInv_init htf
    obtain ⟨h3, h4⟩ := fireDue_kline tEnd (runThrottleAux initThrottle 0 tr).1
      (kAfter 0 (klineEmits (runThrottleAux initThrottle 0 tr).2))
      (lastTimeFrom 0 tr) h2 hlast
    have hsplit : klineEmits (runThrottleFlush tr tEnd)
        = klineEmits (runThrottleAux initThrottle 0 tr).2
          ++ klineEmits (fireDue tEnd (runThrottleAux initThrottle 0 tr).1).2 := by
      show klineEmits ((runThrottleAux initThrottle 0 tr).2
        ++ (fireDue tEnd (runThrottleAux initThrottle 0 tr).1).2) = _
      exact klineEmits_append _ _
    rw [hsplit]
    exact klineChainFrom_chain _ 0 (klineChainFrom_append _ _ 0 h1 h3)

theorem throttle_min_interval_witness :
    timesMono [(1000, StreamEvent.price), (1300, StreamEvent.price)] ∧
    (∀ x ∈ [(1000, StreamEvent.price), (1300, StreamEvent.price)],
      x.1 ≤ 2000) ∧
    priceOnly [(1000, StreamEvent.price), (1300, StreamEvent.price)] ∧
    List.Chain' (fun a b => a.time + PRICE_THROTTLE_MS ≤ b.time)
      (priceEmits (runThrottleFlush
        [(1000, StreamEvent.price), (1300, StreamEvent.price)] 2000)) := by
  have hmono : timesMono [(1000, StreamEvent.price), (1300, StreamEvent.price)] :=
    List.Chain.cons (by decide) List.Chain.nil
  have hpo : priceOnly [(1000, StreamEvent.price), (1300, StreamEvent.price)] := by
    unfold priceOnly
    decide
  refine ⟨hmono, by decide, hpo, ?_⟩
  exact (throttle_min_interval
    [(1000, StreamEvent.price), (1300, StreamEvent.price)] 2000
    hmono (by decide)).1 hpo

/-- C4 counterexample: kline at t=1000 broadcasts price idx 0; kline at
t=1100 arms the kline timer for t=1500; price at t=1150 arms the price
timer for t=1200, which fires and emits idx 2; at t=1500 the kline timer
fires and re-emits the pending price idx 2 — the emitted price values
[0, 2, 2] are not a strictly increasing subsequence of the received
values (idx 2 is delivered twice, the second time from a stale timer). -/
theorem C4_counterexample :
    1150 + 2 * PRICE_THROTTLE_MS ≤ 1550 ∧
    (priceEmits (runThrottleFlush
        [(1000, StreamEvent.kline), (1100, StreamEvent.kline),
         (1150, StreamEvent.price)] 1550)).map Emit.idx = [0, 2, 2] ∧
    ¬ List.Chain' (fun a b => a.idx < b.idx)
      (priceEmits (runThrottleFlush
        [(1000, StreamEvent.kline), (1100, StreamEvent.kline),
         (1150, StreamEvent.price)] 1550)) := by
  have he : priceEmits (runThrottleFlush
      [(1000, StreamEvent.kline), (1100, StreamEvent.kline),
       (1150, StreamEvent.price)] 1550)
      = [⟨1000, Chan.price, 0⟩, ⟨1200, Chan.price, 2⟩,
         ⟨1500, Chan.price, 2⟩] := by decide
  refine ⟨by decide, by decide, ?_⟩
  intro h
  rw [he, List.chain'_cons, List.chain'_cons] at h
  exact absurd h.2.1 (by decide)

/-- C4 (amended): in the absence of kline events for the symbol the full
coalescing property holds: the emitted price values are a strictly
increasing subsequence (by arrival index) of the received values, and
once the trace goes silent for 2·minInterval the last-arrived value has
been emitted (a firing timer always emits the then-current pending
value).  In mixed traces the kline timer can re-emit an already-emitted
price value, so the strict-subsequence half fails there. -/
theorem throttle_coalescing (tr : List (Nat × StreamEvent)) (tEnd : Nat)
    (hmono : timesMono tr) (hpo : priceOnly tr)
    (hend : ∀ x ∈ tr, x.1 + 2 * PRICE_THROTTLE_MS ≤ tEnd) :
    List.Chain' (fun a b => a.idx < b.idx)
      (priceEmits (runThrottleFlush tr tEnd)) ∧
    IdxLt (priceEmits (runThrottleFlush tr tEnd)) tr.length ∧
    (tr ≠ [] →
      ∃ e ∈ priceEmits (runThrottleFlush tr tEnd), e.idx = tr.length - 1) := by
  have htf := timesFrom_zero_of_mono tr hmono
  have hend1 : ∀ x ∈ tr, x.1 ≤ tEnd := by
    intro x hx
    have := hend x hx
    omega
  have hlast : lastTimeFrom 0 tr ≤ tEnd :=
    lastTimeFrom_le tr 0 (Nat.zero_le _) hend1
  obtain ⟨h1, h2, h3⟩ :=
    runThrottleAux_price tr initThrottle none 0 0 priceInv_init htf hpo
  obtain ⟨h4, h5, h6⟩ := fireDue_price tEnd (runThrottleAux initThrottle 0 tr).1
    (prevAfter none (runThrottleAux initThrottle 0 tr).2) (lastTimeFrom 0 tr)
    (0 + tr.length) h3 hlast
  have hchain : PriceChainFrom none (runThrottleFlush tr tEnd) := by
    show PriceChainFrom none ((runThrottleAux initThrottle 0 tr).2
      ++ (fireDue tEnd (runThrottleAux initThrottle 0 tr).1).2)
    exact priceChainFrom_append _ _ none h1 h4
  have hemits : priceEmits (runThrottleFlush tr tEnd) = runThrottleFlush tr tEnd :=
    priceEmits_of_chain hchain
  refine ⟨?_, ?_, ?_⟩
  · rw [hemits]
    exact (priceChainFrom_chain _ none hchain).2.1
  · rw [hemits]
    show IdxLt ((runThrottleAux initThrottle 0 tr).2
      ++ (fireDue tEnd (runThrottleAux initThrottle 0 tr).1).2) tr.length
    exact IdxLt_append (IdxLt_mono h2 (by omega)) (IdxLt_mono h5 (by omega))
  · intro hne
    rw [hemits]
    have hn0 : tr.length ≠ 0 := fun h => hne (List.length_eq_zero.mp h)
    obtain ⟨hkt, hlp, hlpT, hpend, hprevIdx, hdone, htimer⟩ := h3
    cases hpt : (runThrottleAux initThrottle 0 tr).1.priceTimer with
    | none =>
      obtain ⟨t', hprev⟩ := hdone hpt (by omega)
      rcases prevAfter_mem _ none _ hprev with hh | hh
      · cases hh
      · obtain ⟨e, he1, _, he3⟩ := hh
        refine ⟨e, ?_, ?_⟩
        · show e ∈ (runThrottleAux initThrottle 0 tr).2
            ++ (fireDue tEnd (runThrottleAux initThrottle 0 tr).1).2
          exact List.mem_append_left _ he1
        · rw [he3]
          show 0 + tr.length - 1 = tr.length - 1
          omega
    | some f =>
      obtain ⟨hfeq, hTf, _, _⟩ := htimer f hpt
      have hfle : f ≤ tEnd := by
        rcases lastTimeFrom_mem tr 0 hne with ⟨x, hx1, hx2⟩
        have hxe := hend x hx1
        rw [hx2] at hlpT
        omega
      have hpend2 : (runThrottleAux initThrottle 0 tr).1.pendingPrice
          = some (0 + tr.length - 1) := by
        rw [hpend, if_neg (by omega)]
      have hfire : fireDue tEnd (runThrottleAux initThrottle 0 tr).1
          = ({ (runThrottleAux initThrottle 0 tr).1 with
                priceTimer := none
                lastPriceBroadcast := f },
             [⟨f, Chan.price, 0 + tr.length - 1⟩]) := by
        simp only [fireDue, hpt, hkt, if_pos hfle, firePriceTimer, hpend2]
      refine ⟨⟨f, Chan.price, 0 + tr.length - 1⟩, ?_, ?_⟩
      · show (⟨f, Chan.price, 0 + tr.length - 1⟩ : Emit)
          ∈ (runThrottleAux initThrottle 0 tr).2
            ++ (fireDue tEnd (runThrottleAux initThrottle 0 tr).1).2
        rw [hfire]
        exact List.mem_append_right _ (List.mem_cons_self _ _)
      · show 0 + tr.length - 1 = tr.length - 1
        omega

theorem throttle_coalescing_witness :
    timesMono [(1000, StreamEvent.price), (1100, StreamEvent.price)] ∧
    priceOnly [(1000, StreamEvent.price), (1100, StreamEvent.price)] ∧
    (∀ x ∈ [(1000, StreamEvent.price), (1100, StreamEvent.price)],
      x.1 + 2 * PRICE_THROTTLE_MS ≤ 1600) ∧
    [(1000, StreamEvent.price), (1100, StreamEvent.price)] ≠ [] ∧
    ∃ e ∈ priceEmits (runThrottleFlush
        [(1000, StreamEvent.price), (1100, StreamEvent.price)] 1600),
      e.idx = 1 := by
  have hmono : timesMono [(1000, StreamEvent.price), (1100, StreamEvent.price)] :=
    List.Chain.cons (by decide) List.Chain.nil
  have hpo : priceOnly [(1000, StreamEvent.price), (1100, StreamEvent.price)] := by
    unfold priceOnly
    decide
  refine ⟨hmono, hpo, by decide, by decide, ?_⟩
  exact (throttle_coalescing
    [(1000, StreamEvent.price), (1100, StreamEvent.price)] 1600
    hmono hpo (by decide)).2.2 (by decide)

end ChartBackend
